import Mathlib

/-!
Verification development for the MonitorLLM terminal-activity engine.

The Python sources (src/core/activity_monitor.py, src/core/comprehensive_monitor.py,
src/core/terminal_monitor.py) are shallowly embedded below.  Python strings are
modelled as lists of characters (`PyStr`); `collections.deque(maxlen=n)` as a list
together with `dequeAppend`; `datetime` values as `Int` timestamps (the code stores
ISO strings and compares them both lexicographically and after re-parsing — both
orders coincide with the numeric order of the underlying instants, so one `Int`
field models the timestamp faithfully).  Fallible operations return `Option` or
`Except`.
-/

set_option maxRecDepth 8000

namespace MonitorLLM

/-- Python strings, modelled as lists of characters (`len` = list length,
Python slicing/`in`/`startswith` become the corresponding list operations). -/
abbrev PyStr := List Char

/-- The whitespace characters removed by Python `str.strip()` (ASCII fragment;
the sources only ever produce ASCII whitespace). -/
def pyIsSpace (c : Char) : Bool :=
  c == ' ' || c == '\t' || c == '\n' || c == '\r' || c == '\x0b' || c == '\x0c'

/-- Python `str.strip()`: drop whitespace from both ends. -/
def pyStrip (s : PyStr) : PyStr :=
  ((s.dropWhile pyIsSpace).reverse.dropWhile pyIsSpace).reverse

/-- Python `str.startswith(pre)`. -/
def pyStartsWith (pre s : PyStr) : Bool :=
  List.isPrefixOf pre s

/-- Python `s.split(c, 1)` when `c` occurs in `s`: the part before the first
occurrence of `c` and the part after it; `none` when `c` does not occur
(in which case `split` returns the one-element list `[s]`). -/
def pySplitFirst (c : Char) : PyStr → Option (PyStr × PyStr)
  | [] => none
  | x :: xs =>
    if x == c then some ([], xs)
    else
      match pySplitFirst c xs with
      | some (a, b) => some (x :: a, b)
      | none => none

/-- Python `s.split(c)` for a single separator character (used for
`context_buffer.split('\n')`).  Always returns a non-empty list. -/
def splitOnChar (c : Char) : PyStr → List PyStr
  | [] => [[]]
  | x :: xs =>
    match splitOnChar c xs with
    | [] => [[x]]
    | y :: ys => if x == c then [] :: y :: ys else (x :: y) :: ys

/-- Python `str.lower()` (ASCII). -/
def pyLower (s : PyStr) : PyStr := s.map Char.toLower

/-- Python substring test `needle in hay`. -/
def pyContains (needle : PyStr) : PyStr → Bool
  | [] => needle == []
  | c :: cs => List.isPrefixOf needle (c :: cs) || pyContains needle cs

/-- `collections.deque(maxlen=n)` append: the new element is appended
and, when the bound is exceeded, the oldest elements are dropped from the
front.  (A Python deque drops exactly one element per overflowing append; the
`drop` formulation coincides with that whenever the input already respects the
bound, and is total otherwise.) -/
def dequeAppend (maxlen : Nat) (xs : List α) (x : α) : List α :=
  (xs ++ [x]).drop (xs.length + 1 - maxlen)

/-- The trimming loop of `TerminalActivityMonitor._update_context_buffer`
(activity_monitor.py:313-316): pop the oldest line while the joined text is
longer than `0.8 * max_context_size`.  The Python comparison
`len > max_context_size * 0.8` against the IEEE product is modelled by the
exact rational comparison `5 * len > 4 * m`; the two can differ only at the
exact boundary, on which none of the proved bounds depend. -/
def trimLines (m : Nat) : List PyStr → List PyStr
  | [] => []
  | l :: ls =>
    if 5 * (List.intercalate ['\n'] (l :: ls)).length > 4 * m then trimLines m ls
    else l :: ls

/-- `TerminalActivityMonitor._update_context_buffer` (activity_monitor.py:307-317):
append `text + "\n"`; if the buffer exceeds `max_context_size`, split into
lines, drop oldest lines until the joined text is within 80% of the bound, and
re-join. -/
def updateContextBuffer (m : Nat) (buf text : PyStr) : PyStr :=
  let b := buf ++ text ++ ['\n']
  if b.length > m then
    List.intercalate ['\n'] (trimLines m (splitOnChar '\n' b))
  else b

/-- Zero-padded two-digit rendering of a number below 100 (strftime field). -/
def pad2 (n : Nat) : PyStr :=
  if n < 10 then '0' :: Nat.toDigits 10 n else Nat.toDigits 10 n

/-- `timestamp.strftime('%H:%M:%S')` for an `Int` timestamp in seconds. -/
def hmsString (t : Int) : PyStr :=
  let s := (t % 86400).toNat
  pad2 (s / 3600) ++ ':' :: pad2 (s % 3600 / 60) ++ ':' :: pad2 (s % 60)

/-- The line `f"[{timestamp.strftime('%H:%M:%S')}] $ {command}"` rendered into
the context buffer by `log_command` (activity_monitor.py:243). -/
def renderCmdLine (ts : Int) (cmd : PyStr) : PyStr :=
  '[' :: hmsString ts ++ ']' :: ' ' :: '$' :: ' ' :: cmd

/-- A `command_history` entry (activity_monitor.py:232-237; the constant
`duration: None` field is omitted). -/
structure CmdEntry where
  ts : Int
  command : PyStr
  directory : PyStr
deriving DecidableEq

/-- An `output_history` entry (activity_monitor.py:253-258). -/
structure OutEntry where
  ts : Int
  command : PyStr
  output : PyStr
  directory : PyStr
deriving DecidableEq

/-- A `session_data["directory_changes"]` entry (activity_monitor.py:278-282). -/
structure DirChange where
  ts : Int
  fromDir : PyStr
  toDir : PyStr
deriving DecidableEq

/-- A `session_data["file_operations"]` entry (activity_monitor.py:295-300). -/
structure FileOpEntry where
  ts : Int
  operation : PyStr
  filepath : PyStr
  directory : PyStr
deriving DecidableEq

/-- The `session_data` dict initialised in `__init__`
(activity_monitor.py:28-34; `start_time` is carried by `MonitorState`). -/
structure SessionData where
  commands : List CmdEntry
  outputs : List OutEntry
  directoryChanges : List DirChange
  fileOperations : List FileOpEntry
deriving DecidableEq

/-- The two constructor parameters of `TerminalActivityMonitor.__init__`
(defaults `max_context_size=10000`, `max_history_items=100`). -/
structure MonitorConfig where
  maxContextSize : Nat
  maxHistoryItems : Nat
deriving DecidableEq

/-- The default constructor arguments. -/
def defaultConfig : MonitorConfig := ⟨10000, 100⟩

/-- The mutable state of a `TerminalActivityMonitor`
(activity_monitor.py:16-34). -/
structure MonitorState where
  commandHistory : List CmdEntry
  outputHistory : List OutEntry
  contextBuffer : PyStr
  currentDirectory : PyStr
  sessionData : SessionData
deriving DecidableEq

/-- The state right after `__init__`: empty bounded histories, empty context
buffer, empty session lists. -/
def initState (cwd : PyStr) : MonitorState :=
  ⟨[], [], [], cwd, ⟨[], [], [], []⟩⟩

/-- `TerminalActivityMonitor.log_command` (activity_monitor.py:226-245). -/
def logCommand (cfg : MonitorConfig) (st : MonitorState) (ts : Int) (cmd : PyStr) :
    MonitorState :=
  let e : CmdEntry := ⟨ts, cmd, st.currentDirectory⟩
  { st with
    commandHistory := dequeAppend cfg.maxHistoryItems st.commandHistory e
    sessionData := { st.sessionData with commands := st.sessionData.commands ++ [e] }
    contextBuffer := updateContextBuffer cfg.maxContextSize st.contextBuffer
      (renderCmdLine ts cmd) }

/-- `TerminalActivityMonitor.log_output` (activity_monitor.py:247-267): the
context buffer is only touched when `output.strip()` is non-empty. -/
def logOutput (cfg : MonitorConfig) (st : MonitorState) (ts : Int)
    (cmd output : PyStr) : MonitorState :=
  let e : OutEntry := ⟨ts, cmd, output, st.currentDirectory⟩
  { st with
    outputHistory := dequeAppend cfg.maxHistoryItems st.outputHistory e
    sessionData := { st.sessionData with outputs := st.sessionData.outputs ++ [e] }
    contextBuffer :=
      if pyStrip output ≠ [] then
        updateContextBuffer cfg.maxContextSize st.contextBuffer output
      else st.contextBuffer }

/-- One append observed by the monitor: a logged command or a logged output. -/
inductive AppendOp where
  | cmd (ts : Int) (c : PyStr)
  | out (ts : Int) (c o : PyStr)
deriving DecidableEq

/-- Apply one append to the monitor state. -/
def applyOp (cfg : MonitorConfig) (st : MonitorState) : AppendOp → MonitorState
  | .cmd ts c => logCommand cfg st ts c
  | .out ts c o => logOutput cfg st ts c o

/-- Run a sequence of appends. -/
def runOps (cfg : MonitorConfig) (st : MonitorState) (ops : List AppendOp) :
    MonitorState :=
  ops.foldl (applyOp cfg) st

/-- Number of command appends in an operation sequence. -/
def countCmdOps (ops : List AppendOp) : Nat :=
  ops.countP fun o => match o with | .cmd _ _ => true | .out _ _ _ => false

/-- Number of output appends in an operation sequence. -/
def countOutOps (ops : List AppendOp) : Nat :=
  ops.countP fun o => match o with | .cmd _ _ => false | .out _ _ _ => true

/-! ### Shell-history line parsing

`ShellHistoryMonitor._parse_history_line` (comprehensive_monitor.py:388-397)
together with its caller loop (comprehensive_monitor.py:372-383); the loops in
activity_monitor.py:94-108 and terminal_monitor.py:232-254 perform the
identical per-line computation. -/

/-- Parse one raw history line into the command it logs, or `none` when the
line produces no event (blank, comment, or a zsh-format line whose command
part strips to nothing). -/
def parseHistoryLine (raw : PyStr) : Option PyStr :=
  let line := pyStrip raw
  if line = [] then none
  else if pyStartsWith ['#'] line then none
  else
    let command :=
      if pyStartsWith [':', ' '] line then
        match pySplitFirst ';' line with
        | some (_, rest) => pyStrip rest
        | none => line
      else line
    if command = [] then none else some command

/-- One line step of `terminal_monitor.ShellHistoryMonitor._read_new_history`
(terminal_monitor.py:232-254): parse the line and append the command to the
pending deque (maxlen 100) unless it equals the most recently appended
command. -/
def shmStep (acc : List PyStr) (line : PyStr) : List PyStr :=
  match parseHistoryLine line with
  | none => acc
  | some c => if acc.getLast? = some c then acc else dequeAppend 100 acc c

/-- The line loop of `terminal_monitor.ShellHistoryMonitor._read_new_history`
over the observed lines. -/
def processLines (acc : List PyStr) (lines : List PyStr) : List PyStr :=
  lines.foldl shmStep acc

/-- `terminal_monitor.ShellHistoryMonitor._read_new_history`: the loop applied
to the last 50 lines of the history file. -/
def readNewHistory (acc : List PyStr) (lines : List PyStr) : List PyStr :=
  processLines acc (lines.drop (lines.length - 50))

/-- One line step of the comprehensive monitor's
`ShellHistoryMonitor._process_history_update` (comprehensive_monitor.py:372-383):
parse and append to the pending deque (maxlen 50) with no deduplication. -/
def chmStep (acc : List PyStr) (line : PyStr) : List PyStr :=
  match parseHistoryLine line with
  | none => acc
  | some c => dequeAppend 50 acc c

/-- `comprehensive_monitor.ShellHistoryMonitor._process_history_update`: the
loop applied to the last 10 lines of the history file. -/
def processHistoryUpdate (acc : List PyStr) (lines : List PyStr) : List PyStr :=
  (lines.drop (lines.length - 10)).foldl chmStep acc

/-! ### Stable sorting

Python's `list.sort`/`sorted` are stable; they are modelled by stable
insertion sort.  `stableInsertBy lt x l` keeps `y` before `x` exactly when
`lt y x`, so an element inserted from further left in the original list lands
before all elements it compares equal to. -/

/-- Stable insertion of `x` into `l`. -/
def stableInsertBy (lt : α → α → Bool) (x : α) : List α → List α
  | [] => [x]
  | y :: ys => if lt y x then y :: stableInsertBy lt x ys else x :: y :: ys

/-- Stable insertion sort. -/
def stableSortBy (lt : α → α → Bool) : List α → List α
  | [] => []
  | x :: xs => stableInsertBy lt x (stableSortBy lt xs)

/-! ### Windowed context rendering

`TerminalActivityMonitor.get_context(include_recent_only=True, minutes)`
(activity_monitor.py:333-372): the fallback rendering path used when
comprehensive monitoring is inactive.  The code stores ISO timestamp strings
and (a) filters with `datetime.fromisoformat(ts) >= cutoff`, (b) sorts the
merged entries by the ISO string; both orders agree with the numeric order of
the instants, modelled by `Int` comparison.  Only the event portion of the
rendered text is modelled; the directory/existing-content preamble lines
prepended by the code carry no events. -/

/-- A merged timeline entry as built in `all_entries`
(activity_monitor.py:357-361): commands first, then outputs. -/
inductive TEntry where
  | cmd (e : CmdEntry)
  | out (e : OutEntry)
deriving DecidableEq

/-- Timestamp of a merged entry. -/
def TEntry.ts : TEntry → Int
  | .cmd e => e.ts
  | .out e => e.ts

/-- The command entries surviving the recency filter
(activity_monitor.py:335-338). -/
def qualifyingCmds (cutoff : Int) (cmds : List CmdEntry) : List CmdEntry :=
  cmds.filter fun e => decide (cutoff ≤ e.ts)

/-- The output entries surviving the recency filter
(activity_monitor.py:339-342). -/
def qualifyingOuts (cutoff : Int) (outs : List OutEntry) : List OutEntry :=
  outs.filter fun e => decide (cutoff ≤ e.ts)

/-- Sort-key comparison for `all_entries.sort(key=lambda x: x[1]["timestamp"])`. -/
def entryLt (a b : TEntry) : Bool := decide (a.ts < b.ts)

/-- The merged, recency-filtered, timestamp-sorted entry list
(activity_monitor.py:356-363); `cutoff = now - minutes*60` seconds. -/
def sortedRecent (now mins : Int) (cmds : List CmdEntry) (outs : List OutEntry) :
    List TEntry :=
  stableSortBy entryLt
    ((qualifyingCmds (now - mins * 60) cmds).map TEntry.cmd ++
      (qualifyingOuts (now - mins * 60) outs).map TEntry.out)

/-- `all_entries[-20:]` (activity_monitor.py:365): the rendered subset. -/
def recentEntries (now mins : Int) (cmds : List CmdEntry) (outs : List OutEntry) :
    List TEntry :=
  let s := sortedRecent now mins cmds outs
  s.drop (s.length - 20)

/-- `output[:500] + "..." if len(output) > 500 else output`
(activity_monitor.py:369). -/
def truncateOutput (o : PyStr) : PyStr :=
  if 500 < o.length then o.take 500 ++ ("...".toList) else o

/-- Rendering of one entry (activity_monitor.py:366-370). -/
def renderTEntry : TEntry → PyStr
  | .cmd e => '$' :: ' ' :: e.command
  | .out e => truncateOutput e.output

/-- The event lines of the recent-only context. -/
def getRecentContextEntryLines (now mins : Int) (cmds : List CmdEntry)
    (outs : List OutEntry) : List PyStr :=
  (recentEntries now mins cmds outs).map renderTEntry

/-! ### Session summary (activity_monitor.py:425-448) -/

/-- Python `s.split()[0]`: first whitespace-delimited token, `none` when the
string has no token (on which the subscript raises `IndexError`). -/
def firstToken (s : PyStr) : Option PyStr :=
  match s.dropWhile pyIsSpace with
  | [] => none
  | c :: cs => some ((c :: cs).takeWhile fun d => !(pyIsSpace d))

/-- The basename computation
`cmd_entry["command"].split()[0] if cmd_entry["command"] else ""`
(activity_monitor.py:445): empty commands yield `""`; whitespace-only
non-empty commands make the subscript raise, modelled by `none`. -/
def basename (cmd : PyStr) : Option PyStr :=
  if cmd = [] then some [] else firstToken cmd

/-- Total variant of `basename`, defaulting the raising case. -/
def basenameD (cmd : PyStr) : PyStr := (basename cmd).getD []

/-- `command_counts[cmd] = command_counts.get(cmd, 0) + 1` on an
insertion-ordered dict, modelled as an association list. -/
def bump (k : PyStr) : List (PyStr × Nat) → List (PyStr × Nat)
  | [] => [(k, 1)]
  | (k', n) :: rest => if k' = k then (k', n + 1) :: rest else (k', n) :: bump k rest

/-- The counting loop of `_get_most_used_commands` (activity_monitor.py:443-446);
`none` when some command makes `split()[0]` raise. -/
def commandCountsAux (acc : List (PyStr × Nat)) : List PyStr → Option (List (PyStr × Nat))
  | [] => some acc
  | c :: cs =>
    match basename c with
    | none => none
    | some k => commandCountsAux (bump k acc) cs

/-- Command-basename frequency table in first-seen key order. -/
def commandCounts (cmds : List PyStr) : Option (List (PyStr × Nat)) :=
  commandCountsAux [] cmds

/-- Total variant of `commandCounts` (used to state properties of the
non-raising case). -/
def commandCountsTotal (cmds : List PyStr) : List (PyStr × Nat) :=
  cmds.foldl (fun acc c => bump (basenameD c) acc) []

/-- Sort-key comparison for
`sorted(command_counts.items(), key=lambda x: x[1], reverse=True)`:
`y` stays before a later-inserted `x` exactly when its count is strictly
larger (Python's `reverse=True` keeps ties in original order). -/
def countDescLt (a b : PyStr × Nat) : Bool := decide (b.2 < a.2)

/-- `TerminalActivityMonitor._get_most_used_commands`
(activity_monitor.py:441-448). -/
def getMostUsedCommands (cmds : List PyStr) : Option (List (PyStr × Nat)) :=
  (commandCounts cmds).map fun counts => (stableSortBy countDescLt counts).take 10

/-- The summary dict built by `get_session_summary` (activity_monitor.py:425-439);
`session_duration`, `current_directory` and `recent_files` carry no counted
state and are omitted. -/
structure SessionSummary where
  totalCommands : Nat
  totalOutputs : Nat
  directoryChanges : Nat
  fileOperations : Nat
  mostUsedCommands : List (PyStr × Nat)
deriving DecidableEq

/-- `TerminalActivityMonitor.get_session_summary`: `none` models the
`IndexError` escaping from `_get_most_used_commands`. -/
def getSessionSummary (st : MonitorState) : Option SessionSummary :=
  (getMostUsedCommands (st.commandHistory.map (·.command))).map fun mu =>
    ⟨st.commandHistory.length, st.outputHistory.length,
      st.sessionData.directoryChanges.length, st.sessionData.fileOperations.length, mu⟩

/-! ### Session loading (activity_monitor.py:472-490)

`load_session` opens and `json.load`s the file inside a `try` whose `except`
logs and returns; `LoadResult.failure` models an open or parse error (raised
before any state is mutated).  `LoadResult.success` models a file parsing to
an object with list-valued `"commands"`/`"outputs"` entries — the shape
`save_session` writes.  On success the code assigns `session_data`, clears the
two bounded deques (their `maxlen` persists) and re-appends every stored
entry. -/

inductive LoadResult where
  | failure
  | success (sd : SessionData)
deriving DecidableEq

/-- `TerminalActivityMonitor.load_session`. -/
def loadSession (cfg : MonitorConfig) (st : MonitorState) (r : LoadResult) :
    MonitorState :=
  match r with
  | .failure => st
  | .success sd =>
    { st with
      sessionData := sd
      commandHistory := sd.commands.foldl (dequeAppend cfg.maxHistoryItems) []
      outputHistory := sd.outputs.foldl (dequeAppend cfg.maxHistoryItems) [] }

/-! ### Process watching (comprehensive_monitor.py:406-499)

`ProcessWatcher._monitor_processes` diffs each process-table snapshot against
the previously known pid set.  Pid sets are modelled as duplicate-free lists
in first-seen order (Python set iteration order is unspecified; every proved
statement is insensitive to it except for the order among simultaneous
termination events, which follows the modelled order).  The emitted events are
returned as a list; the code buffers them in a deque of maxlen 30 drained each
coordinator cycle. -/

/-- One row of `psutil.process_iter(['pid', 'name', 'cmdline', ...])`. -/
structure ProcInfo where
  pid : Nat
  name : PyStr
  cmdline : List PyStr
deriving DecidableEq

/-- `' '.join(cmdline) if cmdline else name` (comprehensive_monitor.py:450). -/
def cmdlineStr (p : ProcInfo) : PyStr :=
  if p.cmdline = [] then p.name else List.intercalate [' '] p.cmdline

/-- The allow-list of `ProcessWatcher._is_interesting_process`
(comprehensive_monitor.py:486-490). -/
def interestingNames : List PyStr :=
  ["bash", "zsh", "fish", "sh", "python", "node", "npm", "pip",
   "vim", "nano", "emacs", "code", "git", "docker", "kubectl",
   "ssh", "rsync", "curl", "wget", "make", "gcc", "java"].map String.toList

/-- `ProcessWatcher._is_interesting_process` (comprehensive_monitor.py:480-493):
substring match of any allow-list word against the lowercased name or joined
command line. -/
def isInterestingProcess (p : ProcInfo) : Bool :=
  interestingNames.any fun i =>
    pyContains i (pyLower p.name) || pyContains i (pyLower (cmdlineStr p))

inductive PAction where
  | started
  | terminated
deriving DecidableEq

/-- A process event as appended to `new_processes` (timestamp field omitted). -/
structure PEvent where
  pid : Nat
  name : PyStr
  cmdline : Option PyStr
  action : PAction
deriving DecidableEq

/-- The `"started"` entry (comprehensive_monitor.py:447-453). -/
def startedEvent (p : ProcInfo) : PEvent := ⟨p.pid, p.name, some (cmdlineStr p), .started⟩

/-- The `"terminated"` entry (comprehensive_monitor.py:464-469). -/
def terminatedEvent (pid : Nat) (info : ProcInfo) : PEvent := ⟨pid, info.name, none, .terminated⟩

/-- Python dict assignment `d[k] = v` on an insertion-ordered association
list: overwrite in place, else append. -/
def dictSet [BEq κ] (k : κ) (v : ν) : List (κ × ν) → List (κ × ν)
  | [] => [(k, v)]
  | (k', v') :: r => if k' == k then (k', v) :: r else (k', v') :: dictSet k v r

/-- Python `del d[k]`: remove the (unique) entry with key `k`. -/
def dictRemove [BEq κ] (k : κ) : List (κ × ν) → List (κ × ν)
  | [] => []
  | q :: rest => if q.1 == k then rest else q :: dictRemove k rest

/-- `self.known_pids` and `self.process_cache` (comprehensive_monitor.py:413-414). -/
structure WatcherState where
  knownPids : List Nat
  cache : List (Nat × ProcInfo)
deriving DecidableEq

/-- The watcher state at construction. -/
def initWatcher : WatcherState := ⟨[], []⟩

/-- The `current_pids` set accumulated over one snapshot. -/
def snapshotPids (snap : List ProcInfo) : List Nat :=
  snap.foldl (fun a p => if p.pid ∈ a then a else a ++ [p.pid]) []

/-- The body of the enumeration loop (comprehensive_monitor.py:440-455): a
pid not yet known whose process is interesting emits a started event and is
cached; everything else is skipped. -/
def startStep (known : List Nat) (acc : List PEvent × List (Nat × ProcInfo))
    (p : ProcInfo) : List PEvent × List (Nat × ProcInfo) :=
  if p.pid ∈ known then acc
  else if isInterestingProcess p then
    (acc.1 ++ [startedEvent p], dictSet p.pid p acc.2)
  else acc

/-- The body of the terminated-pid loop (comprehensive_monitor.py:462-471): a
vanished pid emits a terminated event only when present in the cache, from
which it is then deleted. -/
def termStep (acc : List PEvent × List (Nat × ProcInfo)) (pid : Nat) :
    List PEvent × List (Nat × ProcInfo) :=
  match List.lookup pid acc.2 with
  | some info => (acc.1 ++ [terminatedEvent pid info], dictRemove pid acc.2)
  | none => acc

/-- The new interesting processes of a snapshot. -/
def newInteresting (known : List Nat) (snap : List ProcInfo) : List ProcInfo :=
  snap.filter fun p => decide (p.pid ∉ known) && isInterestingProcess p

/-- One poll cycle of `ProcessWatcher._monitor_processes`
(comprehensive_monitor.py:437-473): emit a started event (and cache the info)
for each enumerated process whose pid is new and interesting; then, for each
known pid absent from the snapshot, emit a terminated event only when the pid
is in the cache, removing it; finally replace the known-pid set. -/
def watcherStep (st : WatcherState) (snap : List ProcInfo) :
    List PEvent × WatcherState :=
  let startPhase := snap.foldl (startStep st.knownPids) ([], st.cache)
  let current := snapshotPids snap
  let terminatedPids := st.knownPids.filter fun pid => decide (pid ∉ current)
  let termPhase := terminatedPids.foldl termStep startPhase
  (termPhase.1, ⟨current, termPhase.2⟩)

/-- Run the watcher over successive snapshots, collecting all emitted events. -/
def watcherRun (st : WatcherState) (snaps : List (List ProcInfo)) :
    List PEvent × WatcherState :=
  snaps.foldl (fun acc snap =>
    let r := watcherStep acc.2 snap
    (acc.1 ++ r.1, r.2)) ([], st)

/-! ### File reference resolution (activity_monitor.py:387-423)

`parse_file_references` scans the message with the regular expression
`@([^\s@]+(?:\.[^\s@]*)?|/[^\s@]*)` via `re.findall`.  Because `.` and `/`
both belong to `[^\s@]`, the greedy first alternative subsumes the optional
extension group and the second alternative, so each match is `@` followed by
the longest non-empty run of characters that are neither whitespace nor `@`;
`findFileRefs` implements exactly that leftmost non-overlapping scan.
The filesystem is abstracted by `FileSystem`; `Except` errors model raised
exceptions, all of which the code converts to in-band strings. -/

/-- Failures of `os.listdir`: `PermissionError` is caught specially
(activity_monitor.py:414-415); any other exception reaches the outer
`except` (activity_monitor.py:419-420). -/
inductive DirErr where
  | perm
  | other (msg : PyStr)

/-- Abstract filesystem as observed by `parse_file_references`.  A path is a
regular file or a directory or absent; reading and listing may raise. -/
structure FileSystem where
  isFile : PyStr → Bool
  isDir : PyStr → Bool
  readFile : PyStr → Except PyStr PyStr
  listDir : PyStr → Except DirErr (List PyStr)

/-- `os.path.join(cwd, p)` for the relative-path branch
(activity_monitor.py:399-400). -/
def pyJoin (cwd p : PyStr) : PyStr :=
  if cwd = [] then p
  else if cwd.getLast? = some '/' then cwd ++ p
  else cwd ++ '/' :: p

/-- Resolution of a token against the current directory
(activity_monitor.py:396-400). -/
def resolvePath (cwd tok : PyStr) : PyStr :=
  if pyStartsWith ['/'] tok then tok else pyJoin cwd tok

/-- The per-token body of the resolution loop (activity_monitor.py:402-421):
every outcome, including every raised exception, becomes an in-band string. -/
def resolveToken (fs : FileSystem) (cwd tok : PyStr) : PyStr :=
  let fp := resolvePath cwd tok
  if fs.isFile fp then
    match fs.readFile fp with
    | .ok content => content
    | .error msg => ("Error reading file: ".toList) ++ msg
  else if fs.isDir fp then
    match fs.listDir fp with
    | .ok entries => ("Directory contents:\n".toList) ++ List.intercalate ['\n'] entries
    | .error .perm => ("Permission denied: ".toList) ++ fp
    | .error (.other msg) => ("Error reading file: ".toList) ++ msg
  else ("File not found: ".toList) ++ fp

/-- The scanning loop of the file-reference pattern, structurally recursive
on a fuel argument (each step consumes at least one character, so a fuel of
the text's length is always sufficient). -/
def findFileRefsAux : Nat → PyStr → List PyStr
  | 0, _ => []
  | _, [] => []
  | fuel + 1, c :: cs =>
    if c = '@' then
      let tok := cs.takeWhile fun d => !(pyIsSpace d || d == '@')
      if tok = [] then findFileRefsAux fuel cs
      else tok :: findFileRefsAux fuel (cs.drop tok.length)
    else findFileRefsAux fuel cs

/-- `re.findall` of the file-reference pattern: leftmost non-overlapping
matches, each the longest non-empty run of non-whitespace non-`@` characters
after an `@`. -/
def findFileRefs (s : PyStr) : List PyStr :=
  findFileRefsAux s.length s

/-- `TerminalActivityMonitor.parse_file_references`: the result dict mapping
each matched token to its resolution string. -/
def parseFileReferences (fs : FileSystem) (cwd text : PyStr) :
    List (PyStr × PyStr) :=
  (findFileRefs text).foldl (fun acc tok => dictSet tok (resolveToken fs cwd tok) acc) []

/-! ### Lemmas about the bounded buffers -/

/-- The trim loop always ends with the joined text within 80% of the budget
(exact-rational form `5 * len ≤ 4 * m`). -/
theorem trimLines_le (m : Nat) (ls : List PyStr) :
    5 * (List.intercalate ['\n'] (trimLines m ls)).length ≤ 4 * m := by
  induction ls with
  | nil => simp [trimLines, List.intercalate]
  | cons l ls ih =>
    rw [trimLines]
    split
    · exact ih
    · omega

/-- The trim loop only drops lines from the front: the surviving lines are a
suffix of the input lines (oldest evicted first). -/
theorem trimLines_suffix (m : Nat) (ls : List PyStr) :
    List.IsSuffix (trimLines m ls) ls := by
  induction ls with
  | nil => simp [trimLines]
  | cons l ls ih =>
    rw [trimLines]
    split
    · exact ih.trans (List.suffix_cons l ls)
    · exact List.suffix_refl _

/-- After any append the context buffer fits in `max_context_size`. -/
theorem updateContextBuffer_le (m : Nat) (buf text : PyStr) :
    (updateContextBuffer m buf text).length ≤ m := by
  rw [updateContextBuffer]
  split
  · have := trimLines_le m (splitOnChar '\n' (buf ++ text ++ ['\n']))
    omega
  · omega

/-- An append that overflows the budget trims down to at most 80% of it. -/
theorem updateContextBuffer_overflow (m : Nat) (buf text : PyStr)
    (h : m < (buf ++ text ++ ['\n']).length) :
    5 * (updateContextBuffer m buf text).length ≤ 4 * m := by
  rw [updateContextBuffer, if_pos (by omega)]
  exact trimLines_le m _

/-- Length of a bounded-deque append. -/
theorem dequeAppend_length (maxlen : Nat) (xs : List α) (x : α) :
    (dequeAppend maxlen xs x).length = min (xs.length + 1) maxlen := by
  simp only [dequeAppend, List.length_drop, List.length_append, List.length_singleton]
  omega

/-- A bounded-deque append only evicts from the front: the result is a suffix
of the input with the new element appended. -/
theorem dequeAppend_suffix (maxlen : Nat) (xs : List α) (x : α) :
    List.IsSuffix (dequeAppend maxlen xs x) (xs ++ [x]) :=
  List.drop_suffix _ _

/-- With a positive bound, the appended element is the last of the deque. -/
theorem dequeAppend_getLast? (maxlen : Nat) (hm : 0 < maxlen) (xs : List α) (x : α) :
    (dequeAppend maxlen xs x).getLast? = some x := by
  rw [dequeAppend, List.drop_append_of_le_length (by omega)]
  exact List.getLast?_concat _

/-- Running appends keeps the command history at exactly
`min (logged so far) max_history_items` (starting within the bound). -/
theorem runOps_cmdHistory_length (cfg : MonitorConfig) (ops : List AppendOp) :
    ∀ st : MonitorState, st.commandHistory.length ≤ cfg.maxHistoryItems →
      (runOps cfg st ops).commandHistory.length =
        min (st.commandHistory.length + countCmdOps ops) cfg.maxHistoryItems := by
  induction ops with
  | nil => intro st h; simp [runOps, countCmdOps]; omega
  | cons op ops ih =>
    intro st h
    have hfold : runOps cfg st (op :: ops) = runOps cfg (applyOp cfg st op) ops := rfl
    rw [hfold]
    cases op with
    | cmd ts c =>
      have hlen : (applyOp cfg st (.cmd ts c)).commandHistory.length =
          min (st.commandHistory.length + 1) cfg.maxHistoryItems := by
        simp [applyOp, logCommand, dequeAppend_length]
      rw [ih _ (by omega), hlen]
      have hcount : countCmdOps (AppendOp.cmd ts c :: ops) = countCmdOps ops + 1 := by
        simp [countCmdOps, List.countP_cons]
      rw [hcount]; omega
    | out ts c o =>
      have hlen : (applyOp cfg st (.out ts c o)).commandHistory = st.commandHistory := rfl
      rw [ih _ (by rw [hlen]; exact h), hlen]
      have hcount : countCmdOps (AppendOp.out ts c o :: ops) = countCmdOps ops := by
        simp [countCmdOps, List.countP_cons]
      rw [hcount]

/-- Running appends keeps the output history at exactly
`min (logged so far) max_history_items` (starting within the bound). -/
theorem runOps_outHistory_length (cfg : MonitorConfig) (ops : List AppendOp) :
    ∀ st : MonitorState, st.outputHistory.length ≤ cfg.maxHistoryItems →
      (runOps cfg st ops).outputHistory.length =
        min (st.outputHistory.length + countOutOps ops) cfg.maxHistoryItems := by
  induction ops with
  | nil => intro st h; simp [runOps, countOutOps]; omega
  | cons op ops ih =>
    intro st h
    have hfold : runOps cfg st (op :: ops) = runOps cfg (applyOp cfg st op) ops := rfl
    rw [hfold]
    cases op with
    | out ts c o =>
      have hlen : (applyOp cfg st (.out ts c o)).outputHistory.length =
          min (st.outputHistory.length + 1) cfg.maxHistoryItems := by
        simp [applyOp, logOutput, dequeAppend_length]
      rw [ih _ (by omega), hlen]
      have hcount : countOutOps (AppendOp.out ts c o :: ops) = countOutOps ops + 1 := by
        simp [countOutOps, List.countP_cons]
      rw [hcount]; omega
    | cmd ts c =>
      have hlen : (applyOp cfg st (.cmd ts c)).outputHistory = st.outputHistory := rfl
      rw [ih _ (by rw [hlen]; exact h), hlen]
      have hcount : countOutOps (AppendOp.cmd ts c :: ops) = countOutOps ops := by
        simp [countOutOps, List.countP_cons]
      rw [hcount]

/-- Running appends keeps the context buffer within `max_context_size`. -/
theorem runOps_buffer_le (cfg : MonitorConfig) (ops : List AppendOp) :
    ∀ st : MonitorState, st.contextBuffer.length ≤ cfg.maxContextSize →
      (runOps cfg st ops).contextBuffer.length ≤ cfg.maxContextSize := by
  induction ops with
  | nil => intro st h; exact h
  | cons op ops ih =>
    intro st h
    have hfold : runOps cfg st (op :: ops) = runOps cfg (applyOp cfg st op) ops := rfl
    rw [hfold]
    apply ih
    cases op with
    | cmd ts c => exact updateContextBuffer_le _ _ _
    | out ts c o =>
      simp only [applyOp, logOutput]
      split
      · exact updateContextBuffer_le _ _ _
      · exact h

/-- C1: for every sequence of appends, after each append the monitor's buffers
respect their configured bounds: the command and output histories never exceed
`max_history_items` (with eviction only from the oldest end), and whenever an
append pushes the rendered context buffer over `max_context_size` the oldest
lines are dropped until its length is at most 80% of `max_context_size`, so
the buffer never exceeds `max_context_size` after any append. -/
theorem C1_buffer_bounds (cfg : MonitorConfig) (cwd : PyStr) (ops : List AppendOp) :
    (runOps cfg (initState cwd) ops).commandHistory.length ≤ cfg.maxHistoryItems ∧
    (runOps cfg (initState cwd) ops).outputHistory.length ≤ cfg.maxHistoryItems ∧
    (runOps cfg (initState cwd) ops).contextBuffer.length ≤ cfg.maxContextSize ∧
    (∀ buf text : PyStr, cfg.maxContextSize < (buf ++ text ++ ['\n']).length →
      5 * (updateContextBuffer cfg.maxContextSize buf text).length ≤
        4 * cfg.maxContextSize) ∧
    (∀ (xs : List CmdEntry) (x : CmdEntry),
      List.IsSuffix (dequeAppend cfg.maxHistoryItems xs x) (xs ++ [x])) ∧
    (∀ ls : List PyStr, List.IsSuffix (trimLines cfg.maxContextSize ls) ls) := by
  refine ⟨?_, ?_, ?_, ?_, ?_, ?_⟩
  · rw [runOps_cmdHistory_length cfg ops (initState cwd) (by simp [initState])]
    omega
  · rw [runOps_outHistory_length cfg ops (initState cwd) (by simp [initState])]
    omega
  · exact runOps_buffer_le cfg ops (initState cwd) (by simp [initState])
  · exact fun buf text h => updateContextBuffer_overflow _ _ _ h
  · exact fun xs x => dequeAppend_suffix _ _ _
  · exact fun ls => trimLines_suffix _ _

/-- Witness for C1 at concrete inputs: an overflowing append on a budget of 10
gets trimmed to at most 8 characters. -/
theorem C1_buffer_bounds_witness :
    (10 : Nat) < (("aaaa\nbbbb\n".toList : PyStr) ++ ("cc".toList : PyStr) ++ ['\n']).length ∧
    5 * (updateContextBuffer 10 ("aaaa\nbbbb\n".toList) ("cc".toList)).length ≤ 4 * 10 :=
  ⟨by decide,
   (C1_buffer_bounds ⟨10, 2⟩ [] []).2.2.2.1 ("aaaa\nbbbb\n".toList) ("cc".toList)
     (by decide)⟩

/-! ### C2: history-line parsing -/

/-- C2 counterexample: the zsh-format line `": 0:0; ls"` contains `" ls"`
after its first `;`, but the code strips the extracted command and logs
`"ls"`, so the claim's "the text after the first `;`" is not what is produced. -/
theorem C2_counterexample :
    parseHistoryLine (": 0:0; ls".toList) = some ("ls".toList) ∧
    parseHistoryLine (": 0:0; ls".toList) ≠ some (" ls".toList) := by
  constructor
  · decide
  · decide

/-- C2 (amended): each raw line is first stripped of surrounding whitespace;
a stripped line that is empty or starts with `#` yields no event; a stripped
line with leading `": "` containing a `;` yields the text after the first `;`
stripped of surrounding whitespace (no event when that strips to empty); and
every other stripped line is taken verbatim as the command.  The three
concrete examples of the claim are included. -/
theorem C2_history_line_parsing (raw : PyStr) :
    (parseHistoryLine (": 1690000000:0;ls -la".toList) = some ("ls -la".toList) ∧
      parseHistoryLine ("ls -la".toList) = some ("ls -la".toList) ∧
      parseHistoryLine ("# note".toList) = none) ∧
    (pyStrip raw = [] → parseHistoryLine raw = none) ∧
    (pyStartsWith ['#'] (pyStrip raw) = true → parseHistoryLine raw = none) ∧
    (∀ pre rest : PyStr, pyStrip raw ≠ [] →
      pyStartsWith ['#'] (pyStrip raw) = false →
      pyStartsWith [':', ' '] (pyStrip raw) = true →
      pySplitFirst ';' (pyStrip raw) = some (pre, rest) →
      parseHistoryLine raw =
        if pyStrip rest = [] then none else some (pyStrip rest)) ∧
    (pyStrip raw ≠ [] → pyStartsWith ['#'] (pyStrip raw) = false →
      (pyStartsWith [':', ' '] (pyStrip raw) = false ∨
        pySplitFirst ';' (pyStrip raw) = none) →
      parseHistoryLine raw = some (pyStrip raw)) := by
  refine ⟨⟨by decide, by decide, by decide⟩, ?_, ?_, ?_, ?_⟩
  · intro h
    simp [parseHistoryLine, h]
  · intro h
    have hne : pyStrip raw ≠ [] := by
      intro he
      rw [he] at h
      exact absurd h (by decide)
    simp [parseHistoryLine, hne, h]
  · intro pre rest hne hnc hzsh hsplit
    simp [parseHistoryLine, hne, hnc, hzsh, hsplit]
  · intro hne hnc hdisj
    rcases hdisj with hz | hs
    · simp [parseHistoryLine, hne, hnc, hz]
    · by_cases hz : pyStartsWith [':', ' '] (pyStrip raw) = true
      · simp [parseHistoryLine, hne, hnc, hz, hs]
      · simp [parseHistoryLine, hne, hnc, hz]

/-- Witness for C2 at a concrete zsh-format input. -/
theorem C2_history_line_parsing_witness :
    parseHistoryLine (": 1:0;x".toList) =
      (if pyStrip ("x".toList) = [] then none else some (pyStrip ("x".toList))) :=
  (C2_history_line_parsing (": 1:0;x".toList)).2.2.2.1 (": 1:0".toList) ("x".toList)
    (by decide) (by decide) (by decide) (by decide)

/-! ### C3: deduplication of consecutive identical history lines -/

/-- C3 counterexample: the shell-history source actually wired into the
running system (`comprehensive_monitor.ShellHistoryMonitor`) performs no
deduplication — two consecutive identical `"ls"` lines emit two Command
events, not one. -/
theorem C3_counterexample :
    processHistoryUpdate [] ["ls".toList, "ls".toList] = ["ls".toList, "ls".toList] ∧
    processHistoryUpdate [] ["ls".toList, "ls".toList] ≠ ["ls".toList] := by
  constructor
  · decide
  · decide

/-- A step of the deduplicating reader is idempotent on a line that parses. -/
theorem shmStep_idem (acc : List PyStr) (l c : PyStr)
    (h : parseHistoryLine l = some c) :
    shmStep (shmStep acc l) l = shmStep acc l := by
  simp only [shmStep, h]
  by_cases hlast : acc.getLast? = some c
  · rw [if_pos hlast, if_pos hlast]
  · rw [if_neg hlast, if_pos (dequeAppend_getLast? 100 (by omega) acc c)]

/-- C3 (amended): in `terminal_monitor.ShellHistoryMonitor._read_new_history`
a repeated consecutive identical command line is suppressed (only the first
emits an event), while the comprehensive monitor's
`_process_history_update` deduplicates nothing and appends one event per
parsed line even when consecutive lines are identical. -/
theorem C3_consecutive_dedup :
    (∀ (acc : List PyStr) (ws rest : List PyStr) (l c : PyStr),
      parseHistoryLine l = some c →
      processLines acc (ws ++ l :: l :: rest) = processLines acc (ws ++ l :: rest)) ∧
    (∀ (acc : List PyStr) (l c : PyStr), parseHistoryLine l = some c →
      chmStep (chmStep acc l) l = dequeAppend 50 (dequeAppend 50 acc c) c) := by
  constructor
  · intro acc ws rest l c h
    simp only [processLines, List.foldl_append, List.foldl_cons]
    rw [shmStep_idem _ _ _ h]
  · intro acc l c h
    simp [chmStep, h]

/-- Witness for C3 at concrete inputs: two identical `"ls"` lines leave the
deduplicating reader exactly where one leaves it. -/
theorem C3_consecutive_dedup_witness :
    parseHistoryLine ("ls".toList) = some ("ls".toList) ∧
    processLines [] ([] ++ ("ls".toList) :: ("ls".toList) :: []) =
      processLines [] ([] ++ ("ls".toList) :: []) :=
  ⟨by decide,
   C3_consecutive_dedup.1 [] [] [] ("ls".toList) ("ls".toList) (by decide)⟩

/-! ### C10: frame effect of `log_command` -/

/-- C10: `log_command` appends exactly one entry to `session_data["commands"]`
and one (bound-respecting) entry to the command history, pushes exactly the
rendered `[HH:MM:SS] $ command` line into the context buffer, and leaves the
output history, the other session lists and the current directory unchanged. -/
theorem C10_logCommand_frame (cfg : MonitorConfig) (hm : 0 < cfg.maxHistoryItems)
    (st : MonitorState) (ts : Int) (cmd : PyStr) :
    (logCommand cfg st ts cmd).sessionData.commands =
      st.sessionData.commands ++ [⟨ts, cmd, st.currentDirectory⟩] ∧
    (logCommand cfg st ts cmd).commandHistory.getLast? =
      some ⟨ts, cmd, st.currentDirectory⟩ ∧
    List.IsSuffix (logCommand cfg st ts cmd).commandHistory
      (st.commandHistory ++ [⟨ts, cmd, st.currentDirectory⟩]) ∧
    (logCommand cfg st ts cmd).commandHistory.length =
      min (st.commandHistory.length + 1) cfg.maxHistoryItems ∧
    (logCommand cfg st ts cmd).contextBuffer =
      updateContextBuffer cfg.maxContextSize st.contextBuffer (renderCmdLine ts cmd) ∧
    (logCommand cfg st ts cmd).outputHistory = st.outputHistory ∧
    (logCommand cfg st ts cmd).sessionData.outputs = st.sessionData.outputs ∧
    (logCommand cfg st ts cmd).sessionData.directoryChanges =
      st.sessionData.directoryChanges ∧
    (logCommand cfg st ts cmd).sessionData.fileOperations =
      st.sessionData.fileOperations ∧
    (logCommand cfg st ts cmd).currentDirectory = st.currentDirectory :=
  ⟨rfl, dequeAppend_getLast? _ hm _ _, dequeAppend_suffix _ _ _,
   dequeAppend_length _ _ _, rfl, rfl, rfl, rfl, rfl, rfl⟩

/-- Witness for C10 at concrete inputs. -/
theorem C10_logCommand_frame_witness :
    (logCommand defaultConfig (initState []) 0 ("ls".toList)).sessionData.commands =
      (initState []).sessionData.commands ++ [⟨0, "ls".toList, []⟩] :=
  (C10_logCommand_frame defaultConfig (by decide) (initState []) 0 ("ls".toList)).1

/-! ### C8: `load_session` -/

/-- Re-appending a list into a bounded deque keeps
`min (start + appended) maxlen` elements. -/
theorem foldl_dequeAppend_length (m : Nat) (l : List α) :
    ∀ a : List α, a.length ≤ m →
      (l.foldl (dequeAppend m) a).length = min (a.length + l.length) m := by
  induction l with
  | nil => intro a h; simp; omega
  | cons x xs ih =>
    intro a h
    rw [List.foldl_cons, ih _ (by rw [dequeAppend_length]; omega), dequeAppend_length]
    simp only [List.length_cons]
    omega

/-- Re-appending a list into an empty bounded deque retains exactly the last
`maxlen` elements. -/
theorem foldl_dequeAppend_drop (m : Nat) (l : List α) :
    l.foldl (dequeAppend m) [] = l.drop (l.length - m) := by
  induction l using List.reverseRecOn with
  | nil => simp
  | append_singleton xs x ih =>
    rw [List.foldl_append, List.foldl_cons, List.foldl_nil, ih]
    show dequeAppend m (xs.drop (xs.length - m)) x = _
    rw [dequeAppend,
      ← List.drop_append_of_le_length (Nat.sub_le xs.length m),
      List.drop_drop, List.length_drop, List.length_append]
    congr 1
    simp only [List.length_singleton]
    omega

/-- C8 counterexample: loading a (well-formed) session file storing 101
commands does not leave the command history equal to the stored list — the
bounded deque retains only the last 100 entries, so the history is not
"entirely replaced by the lists stored in the file". -/
theorem C8_counterexample :
    (loadSession defaultConfig (initState [])
        (.success ⟨(List.range 101).map (fun i => ⟨Int.ofNat i, [], []⟩), [], [], []⟩)
      ).commandHistory ≠
      (List.range 101).map (fun i => (⟨Int.ofNat i, [], []⟩ : CmdEntry)) := by
  have hlen : (loadSession defaultConfig (initState [])
        (.success ⟨(List.range 101).map (fun i => ⟨Int.ofNat i, [], []⟩), [], [], []⟩)
      ).commandHistory.length = 100 := by
    show (((List.range 101).map (fun i => (⟨Int.ofNat i, [], []⟩ : CmdEntry))).foldl
      (dequeAppend defaultConfig.maxHistoryItems) []).length = 100
    rw [foldl_dequeAppend_length defaultConfig.maxHistoryItems _ [] (by simp)]
    simp [defaultConfig]
  intro h
  rw [h] at hlen
  simp at hlen

/-- C8 (amended): `load_session` leaves `session_data` and both histories
exactly as they were when the file fails to open or parse; when the file
parses to a session object with list-valued command/output lists, the
in-memory state is replaced in one step, with the histories holding the last
`max_history_items` entries of the stored lists — the entire lists whenever
they fit within the bound. -/
theorem C8_loadSession_replace (cfg : MonitorConfig) (st : MonitorState) :
    loadSession cfg st .failure = st ∧
    (∀ sd : SessionData,
      (loadSession cfg st (.success sd)).sessionData = sd ∧
      (loadSession cfg st (.success sd)).commandHistory =
        sd.commands.drop (sd.commands.length - cfg.maxHistoryItems) ∧
      (loadSession cfg st (.success sd)).outputHistory =
        sd.outputs.drop (sd.outputs.length - cfg.maxHistoryItems) ∧
      (sd.commands.length ≤ cfg.maxHistoryItems →
        (loadSession cfg st (.success sd)).commandHistory = sd.commands) ∧
      (sd.outputs.length ≤ cfg.maxHistoryItems →
        (loadSession cfg st (.success sd)).outputHistory = sd.outputs)) := by
  refine ⟨rfl, fun sd => ⟨rfl, foldl_dequeAppend_drop _ _, foldl_dequeAppend_drop _ _,
    ?_, ?_⟩⟩
  · intro hle
    rw [show (loadSession cfg st (.success sd)).commandHistory =
        sd.commands.foldl (dequeAppend cfg.maxHistoryItems) [] from rfl,
      foldl_dequeAppend_drop, Nat.sub_eq_zero_of_le hle, List.drop_zero]
  · intro hle
    rw [show (loadSession cfg st (.success sd)).outputHistory =
        sd.outputs.foldl (dequeAppend cfg.maxHistoryItems) [] from rfl,
      foldl_dequeAppend_drop, Nat.sub_eq_zero_of_le hle, List.drop_zero]

/-- Witness for C8 at a concrete one-command session file. -/
theorem C8_loadSession_replace_witness :
    (loadSession defaultConfig (initState [])
        (.success ⟨[⟨0, "ls".toList, []⟩], [], [], []⟩)).commandHistory =
      [⟨0, "ls".toList, []⟩] :=
  ((C8_loadSession_replace defaultConfig (initState [])).2
    ⟨[⟨0, "ls".toList, []⟩], [], [], []⟩).2.2.2.1 (by decide)

/-! ### C9: summary totals are deque lengths -/

/-- C9: `get_session_summary` reports `total_commands`/`total_outputs` as the
lengths of the bounded history deques, so each reported count is at most
`max_history_items` no matter how many events were logged, and once more
events were logged than the bound the summary undercounts the session
total. -/
theorem C9_summary_counts (cfg : MonitorConfig) (cwd : PyStr)
    (ops : List AppendOp) (s : SessionSummary)
    (h : getSessionSummary (runOps cfg (initState cwd) ops) = some s) :
    s.totalCommands = (runOps cfg (initState cwd) ops).commandHistory.length ∧
    s.totalOutputs = (runOps cfg (initState cwd) ops).outputHistory.length ∧
    s.totalCommands ≤ cfg.maxHistoryItems ∧
    s.totalOutputs ≤ cfg.maxHistoryItems ∧
    (cfg.maxHistoryItems < countCmdOps ops → s.totalCommands < countCmdOps ops) ∧
    (cfg.maxHistoryItems < countOutOps ops → s.totalOutputs < countOutOps ops) := by
  have hc := runOps_cmdHistory_length cfg ops (initState cwd) (by simp [initState])
  have ho := runOps_outHistory_length cfg ops (initState cwd) (by simp [initState])
  have h0c : (initState cwd).commandHistory.length = 0 := rfl
  have h0o : (initState cwd).outputHistory.length = 0 := rfl
  rw [h0c] at hc
  rw [h0o] at ho
  unfold getSessionSummary at h
  cases hmu : getMostUsedCommands
      ((runOps cfg (initState cwd) ops).commandHistory.map (·.command)) with
  | none => rw [hmu] at h; simp at h
  | some mu =>
    rw [hmu] at h
    simp only [Option.map_some', Option.some.injEq] at h
    subst h
    refine ⟨rfl, rfl, ?_, ?_, ?_, ?_⟩
    · show (runOps cfg (initState cwd) ops).commandHistory.length ≤ _
      omega
    · show (runOps cfg (initState cwd) ops).outputHistory.length ≤ _
      omega
    · intro hover
      show (runOps cfg (initState cwd) ops).commandHistory.length < _
      omega
    · intro hover
      show (runOps cfg (initState cwd) ops).outputHistory.length < _
      omega

/-- Witness for C9 at a concrete one-command run. -/
theorem C9_summary_counts_witness :
    (⟨1, 0, 0, 0, [("ls".toList, 1)]⟩ : SessionSummary).totalCommands =
      (runOps defaultConfig (initState []) [.cmd 0 ("ls".toList)]).commandHistory.length :=
  (C9_summary_counts defaultConfig [] [.cmd 0 ("ls".toList)]
    ⟨1, 0, 0, 0, [("ls".toList, 1)]⟩ (by decide)).1

/-! ### Stable sort lemmas -/

/-- Stable insertion permutes: it just places the new element somewhere. -/
theorem stableInsertBy_perm (lt : α → α → Bool) (x : α) :
    ∀ l : List α, List.Perm (stableInsertBy lt x l) (x :: l)
  | [] => List.Perm.refl _
  | y :: ys => by
    rw [stableInsertBy]
    split
    · exact ((stableInsertBy_perm lt x ys).cons y).trans (List.Perm.swap x y ys)
    · exact List.Perm.refl _

/-- Stable sorting permutes the input. -/
theorem stableSortBy_perm (lt : α → α → Bool) :
    ∀ l : List α, List.Perm (stableSortBy lt l) l
  | [] => List.Perm.refl _
  | x :: xs =>
    (stableInsertBy_perm lt x (stableSortBy lt xs)).trans
      ((stableSortBy_perm lt xs).cons x)

/-- Stable insertion into a sorted list is sorted, for any reflexive-free
pair of compatible relations: `lt` decides strictly-before, `le` is the
pairwise order established. -/
theorem pairwise_stableInsertBy (lt : α → α → Bool) (le : α → α → Prop)
    (h0 : ∀ a b, lt a b = true → le a b)
    (h1 : ∀ a b, lt a b = false → le b a)
    (htrans : ∀ a b c, le a b → le b c → le a c) (x : α) :
    ∀ l : List α, List.Pairwise le l → List.Pairwise le (stableInsertBy lt x l) := by
  intro l
  induction l with
  | nil => intro _; simp [stableInsertBy]
  | cons y ys ih =>
    intro hp
    rcases List.pairwise_cons.mp hp with ⟨hy, hys⟩
    rw [stableInsertBy]
    by_cases hlt : lt y x
    · rw [if_pos hlt]
      refine List.pairwise_cons.mpr ⟨?_, ih hys⟩
      intro z hz
      rcases List.mem_cons.mp ((stableInsertBy_perm lt x ys).mem_iff.mp hz) with
        hzx | hzys
      · rw [hzx]; exact h0 y x hlt
      · exact hy z hzys
    · rw [if_neg hlt]
      refine List.pairwise_cons.mpr ⟨?_, hp⟩
      intro z hz
      rcases List.mem_cons.mp hz with hzy | hzys
      · rw [hzy]; exact h1 y x (by simpa using hlt)
      · exact htrans x y z (h1 y x (by simpa using hlt)) (hy z hzys)

/-- Stable insertion sort sorts. -/
theorem pairwise_stableSortBy (lt : α → α → Bool) (le : α → α → Prop)
    (h0 : ∀ a b, lt a b = true → le a b)
    (h1 : ∀ a b, lt a b = false → le b a)
    (htrans : ∀ a b c, le a b → le b c → le a c) :
    ∀ l : List α, List.Pairwise le (stableSortBy lt l) := by
  intro l
  induction l with
  | nil => simp [stableSortBy]
  | cons x xs ih =>
    exact pairwise_stableInsertBy lt le h0 h1 htrans x _ ih

/-- Filtering for one key value commutes with stable insertion, provided the
filter can only select elements that compare equal (nothing strictly below
the inserted element passes the filter when the inserted element does). -/
theorem filter_stableInsertBy (lt : α → α → Bool) (x : α) (p : α → Bool)
    (habs : p x = true → ∀ y, lt y x = true → p y = false) :
    ∀ l : List α, List.filter p (stableInsertBy lt x l) =
      if p x then x :: List.filter p l else List.filter p l := by
  intro l
  induction l with
  | nil =>
    simp [stableInsertBy, List.filter_cons]
  | cons y ys ih =>
    rw [stableInsertBy]
    by_cases hlt : lt y x
    · rw [if_pos hlt]
      by_cases hpx : p x
      · have hpy : p y = false := habs hpx y hlt
        simp [List.filter_cons, hpy, ih, hpx]
      · rcases hpy : p y with _ | _ <;>
          simp [List.filter_cons, hpy, ih, hpx]
    · rw [if_neg hlt]
      rcases hpx : p x with _ | _ <;>
        simp [List.filter_cons, hpx]

/-- Filtering for one key value commutes with stable sorting: elements with
the same sort key stay in their original relative order. -/
theorem filter_stableSortBy (lt : α → α → Bool) (p : α → Bool)
    (habs : ∀ x y, p x = true → lt y x = true → p y = false) :
    ∀ l : List α, List.filter p (stableSortBy lt l) = List.filter p l := by
  intro l
  induction l with
  | nil => rfl
  | cons x xs ih =>
    rw [stableSortBy, filter_stableInsertBy lt x p (fun hpx y hlt => habs x y hpx hlt),
      ih, List.filter_cons]

/-! ### C7: most-used commands -/

/-- When every command has a basename, the counting loop succeeds and agrees
with its total variant. -/
theorem commandCountsAux_eq :
    ∀ (cmds : List PyStr) (acc : List (PyStr × Nat)),
      (∀ c ∈ cmds, (basename c).isSome) →
      commandCountsAux acc cmds =
        some (cmds.foldl (fun a c => bump (basenameD c) a) acc) := by
  intro cmds
  induction cmds with
  | nil => intro acc _; rfl
  | cons c cs ih =>
    intro acc h
    obtain ⟨k, hk⟩ := Option.isSome_iff_exists.mp (h c (List.mem_cons_self c cs))
    have hd : basenameD c = k := by simp [basenameD, hk]
    simp only [commandCountsAux, hk, List.foldl_cons, hd]
    exact ih _ fun d hd' => h d (List.mem_cons_of_mem _ hd')

/-- `commandCounts` never raises when every command has a basename. -/
theorem commandCounts_eq_total (cmds : List PyStr)
    (h : ∀ c ∈ cmds, (basename c).isSome) :
    commandCounts cmds = some (commandCountsTotal cmds) :=
  commandCountsAux_eq cmds [] h

/-- Looking a key up after a `bump`. -/
theorem lookup_bump (k j : PyStr) :
    ∀ acc : List (PyStr × Nat),
      List.lookup j (bump k acc) =
        if j = k then some (((List.lookup k acc).getD 0) + 1)
        else List.lookup j acc := by
  intro acc
  induction acc with
  | nil =>
    by_cases hj : j = k
    · rw [hj]; simp [bump, List.lookup]
    · have hbe : (j == k) = false := beq_eq_false_iff_ne.mpr hj
      simp [bump, List.lookup, hj, hbe]
  | cons p rest ih =>
    obtain ⟨q, n⟩ := p
    rw [bump]
    by_cases hq : q = k
    · rw [if_pos hq, hq]
      by_cases hj : j = k
      · rw [hj]; simp [List.lookup]
      · have hbe : (j == k) = false := beq_eq_false_iff_ne.mpr hj
        simp [List.lookup, hj, hbe]
    · rw [if_neg hq]
      by_cases hj : j = q
      · have hjk : ¬ j = k := fun he => hq (hj ▸ he)
        rw [if_neg hjk, hj]
        simp [List.lookup]
      · have hjq : (j == q) = false := beq_eq_false_iff_ne.mpr hj
        by_cases hjk : j = k
        · have hkq : (k == q) = false :=
            beq_eq_false_iff_ne.mpr fun he => hq he.symm
          rw [if_pos hjk]
          simp only [List.lookup, hjq, hkq]
          rw [ih, if_pos hjk]
        · rw [if_neg hjk]
          simp only [List.lookup, hjq]
          rw [ih, if_neg hjk]

/-- The keys after a `bump`: unchanged when the key was present, appended
otherwise. -/
theorem map_fst_bump (k : PyStr) :
    ∀ acc : List (PyStr × Nat),
      (bump k acc).map Prod.fst =
        if k ∈ acc.map Prod.fst then acc.map Prod.fst
        else acc.map Prod.fst ++ [k] := by
  intro acc
  induction acc with
  | nil => simp [bump]
  | cons p rest ih =>
    obtain ⟨q, n⟩ := p
    rw [bump]
    by_cases hq : q = k
    · rw [if_pos hq, hq]
      simp [List.map_cons]
    · rw [if_neg hq]
      simp only [List.map_cons, ih]
      by_cases hmem : k ∈ rest.map Prod.fst
      · rw [if_pos hmem, if_pos (List.mem_cons_of_mem _ hmem)]
      · rw [if_neg hmem,
          if_neg (by
            intro hc
            rcases List.mem_cons.mp hc with hc | hc
            · exact hq hc.symm
            · exact hmem hc)]
        rfl

/-- `bump` preserves key uniqueness. -/
theorem nodup_map_fst_bump (k : PyStr) (acc : List (PyStr × Nat))
    (h : (acc.map Prod.fst).Nodup) : ((bump k acc).map Prod.fst).Nodup := by
  rw [map_fst_bump]
  by_cases hmem : k ∈ acc.map Prod.fst
  · rwa [if_pos hmem]
  · rw [if_neg hmem, List.nodup_append]
    refine ⟨h, List.nodup_singleton _, ?_⟩
    intro a ha hin
    have : a = k := by simpa using hin
    exact hmem (this ▸ ha)

/-- The frequency table has duplicate-free keys. -/
theorem nodup_keys_commandCountsTotal (cmds : List PyStr) :
    ((commandCountsTotal cmds).map Prod.fst).Nodup := by
  induction cmds using List.reverseRecOn with
  | nil => simp [commandCountsTotal]
  | append_singleton xs x ih =>
    have : commandCountsTotal (xs ++ [x]) = bump (basenameD x) (commandCountsTotal xs) := by
      simp [commandCountsTotal, List.foldl_append]
    rw [this]
    exact nodup_map_fst_bump _ _ ih

/-- Each tabulated count is the number of commands with that basename. -/
theorem lookup_commandCountsTotal (cmds : List PyStr) (j : PyStr) :
    (List.lookup j (commandCountsTotal cmds)).getD 0 =
      cmds.countP (fun c => basenameD c == j) := by
  induction cmds using List.reverseRecOn with
  | nil => simp [commandCountsTotal, List.lookup]
  | append_singleton xs x ih =>
    have hstep : commandCountsTotal (xs ++ [x]) =
        bump (basenameD x) (commandCountsTotal xs) := by
      simp [commandCountsTotal, List.foldl_append]
    rw [hstep, lookup_bump, List.countP_append]
    by_cases hj : j = basenameD x
    · rw [if_pos hj, ← hj]
      simp only [Option.getD_some]
      rw [ih]
      have hx1 : (fun c => basenameD c == j) x = true := by
        simp [beq_iff_eq, hj.symm]
      simp [List.countP_cons, hx1]
    · rw [if_neg hj, ih]
      have hx0 : (fun c => basenameD c == j) x = false := by
        simp only [beq_eq_false_iff_ne]
        exact fun he => hj he.symm
      simp [List.countP_cons, hx0]

/-- With duplicate-free keys, membership determines the lookup. -/
theorem lookup_of_mem_nodup [BEq κ] [LawfulBEq κ] {p : κ × ν} :
    ∀ acc : List (κ × ν), (acc.map Prod.fst).Nodup → p ∈ acc →
      List.lookup p.1 acc = some p.2 := by
  intro acc
  induction acc with
  | nil => intro _ h; cases h
  | cons q rest ih =>
    intro hnd hp
    rcases List.mem_cons.mp hp with hq | hrest
    · rw [hq]
      simp [List.lookup]
    · have hne : p.1 ≠ q.1 := by
        intro he
        have : q.1 ∈ rest.map Prod.fst := he ▸ List.mem_map_of_mem Prod.fst hrest
        exact (List.nodup_cons.mp (by simpa using hnd)).1 this
      have : (p.1 == q.1) = false := by
        simp [beq_iff_eq]
        exact hne
      simp [List.lookup, this]
      exact ih (List.nodup_cons.mp (by simpa using hnd)).2 hrest

/-- C7 counterexample: on the command history `[" "]` (one whitespace-only
command) the code raises `IndexError` inside `_get_most_used_commands`
(`" ".split()` is empty, so `[0]` fails), so no most-used list is produced at
all — refuting the claim's "for every command history". -/
theorem C7_counterexample : getMostUsedCommands [" ".toList] = none := by decide

/-- C7 (amended): for every command history in which each command is empty or
contains a non-whitespace character, the most-used-commands list exists and
has at most 10 entries of `(basename, count)` — basename the first
whitespace-delimited token (empty commands counted under basename `""`),
count the number of commands with that basename — ordered by descending count
with ties in first-seen order; `["git status","git pull","ls"]` yields
`git: 2` ranked first, then `ls: 1`.  Histories containing a whitespace-only
non-empty command make the computation raise instead. -/
theorem C7_most_used_commands (cmds : List PyStr)
    (h : ∀ c ∈ cmds, (basename c).isSome) :
    getMostUsedCommands cmds =
      some ((stableSortBy countDescLt (commandCountsTotal cmds)).take 10) ∧
    ((stableSortBy countDescLt (commandCountsTotal cmds)).take 10).length ≤ 10 ∧
    List.Pairwise (fun a b : PyStr × Nat => b.2 ≤ a.2)
      ((stableSortBy countDescLt (commandCountsTotal cmds)).take 10) ∧
    (∀ p ∈ (stableSortBy countDescLt (commandCountsTotal cmds)).take 10,
      p.2 = cmds.countP (fun c => basenameD c == p.1)) ∧
    (∀ n : Nat,
      (stableSortBy countDescLt (commandCountsTotal cmds)).filter
          (fun p => p.2 == n) =
        (commandCountsTotal cmds).filter (fun p => p.2 == n)) ∧
    getMostUsedCommands ["git status".toList, "git pull".toList, "ls".toList] =
      some [("git".toList, 2), ("ls".toList, 1)] := by
  refine ⟨?_, ?_, ?_, ?_, ?_, by decide⟩
  · rw [getMostUsedCommands, commandCounts_eq_total cmds h, Option.map_some']
  · rw [List.length_take]
    omega
  · refine List.Pairwise.sublist (List.take_sublist _ _) ?_
    refine pairwise_stableSortBy countDescLt _ ?_ ?_ ?_ _
    · intro a b hab
      have : b.2 < a.2 := by simpa [countDescLt] using hab
      omega
    · intro a b hab
      have : ¬ b.2 < a.2 := by simpa [countDescLt] using hab
      omega
    · intro a b c h1 h2
      omega
  · intro p hp
    have hps : p ∈ stableSortBy countDescLt (commandCountsTotal cmds) :=
      (List.take_sublist _ _).subset hp
    have hpc : p ∈ commandCountsTotal cmds :=
      (stableSortBy_perm countDescLt _).mem_iff.mp hps
    have hl := lookup_of_mem_nodup (commandCountsTotal cmds)
      (nodup_keys_commandCountsTotal cmds) hpc
    have := lookup_commandCountsTotal cmds p.1
    rw [hl] at this
    simpa using this
  · intro n
    refine filter_stableSortBy countDescLt _ ?_ _
    intro x y hx hlt
    have hxn : x.2 = n := by simpa [beq_iff_eq] using hx
    have hyx : x.2 < y.2 := by simpa [countDescLt] using hlt
    simp [beq_iff_eq]
    omega

/-- Witness for C7 at the claim's concrete history. -/
theorem C7_most_used_commands_witness :
    getMostUsedCommands ["git status".toList, "git pull".toList, "ls".toList] =
      some ((stableSortBy countDescLt
        (commandCountsTotal ["git status".toList, "git pull".toList, "ls".toList])).take 10) :=
  (C7_most_used_commands ["git status".toList, "git pull".toList, "ls".toList]
    (by decide)).1

/-! ### C4: recent-only context rendering -/

/-- C4 counterexample: an output logged first and a command logged second,
both at timestamp 9000, tie on the sort key.  The claim says ties are broken
by original insertion order (the output first), but `get_context` builds
`all_entries` as all commands followed by all outputs before the stable sort,
so the command is rendered first. -/
theorem C4_counterexample :
    recentEntries 10000 30
      (runOps defaultConfig (initState [])
        [.out 9000 [] ("O".toList), .cmd 9000 ("C".toList)]).commandHistory
      (runOps defaultConfig (initState [])
        [.out 9000 [] ("O".toList), .cmd 9000 ("C".toList)]).outputHistory =
      [.cmd ⟨9000, "C".toList, []⟩, .out ⟨9000, [], "O".toList, []⟩] ∧
    recentEntries 10000 30
      (runOps defaultConfig (initState [])
        [.out 9000 [] ("O".toList), .cmd 9000 ("C".toList)]).commandHistory
      (runOps defaultConfig (initState [])
        [.out 9000 [] ("O".toList), .cmd 9000 ("C".toList)]).outputHistory ≠
      [.out ⟨9000, [], "O".toList, []⟩, .cmd ⟨9000, "C".toList, []⟩] := by
  constructor
  · decide
  · decide

/-- C4 (amended): in the fallback rendering path (comprehensive monitoring
inactive), `get_context(recent_only, minutes=m)` renders no command or output
event older than `m` minutes before the call, renders at most the 20 most
recent qualifying entries (a suffix of the sorted qualifying list), orders
them by timestamp ascending — ties broken by kind, commands before outputs,
each kind in insertion order — and truncates outputs longer than 500
characters with an ellipsis marker. -/
theorem C4_recent_context (now mins : Int) (cmds : List CmdEntry)
    (outs : List OutEntry) :
    (∀ e ∈ recentEntries now mins cmds outs, now - mins * 60 ≤ e.ts) ∧
    (recentEntries now mins cmds outs).length ≤ 20 ∧
    List.IsSuffix (recentEntries now mins cmds outs)
      (sortedRecent now mins cmds outs) ∧
    List.Pairwise (fun a b : TEntry => a.ts ≤ b.ts)
      (recentEntries now mins cmds outs) ∧
    (∀ t : Int,
      (sortedRecent now mins cmds outs).filter (fun e => e.ts == t) =
        ((qualifyingCmds (now - mins * 60) cmds).filter
            (fun e => e.ts == t)).map TEntry.cmd ++
          ((qualifyingOuts (now - mins * 60) outs).filter
            (fun e => e.ts == t)).map TEntry.out) ∧
    (∀ o : OutEntry, 500 < o.output.length →
      renderTEntry (.out o) = o.output.take 500 ++ ("...".toList)) ∧
    getRecentContextEntryLines now mins cmds outs =
      (recentEntries now mins cmds outs).map renderTEntry := by
  refine ⟨?_, ?_, ?_, ?_, ?_, ?_, rfl⟩
  · intro e he
    have hs : e ∈ sortedRecent now mins cmds outs := by
      have : List.Sublist (recentEntries now mins cmds outs)
          (sortedRecent now mins cmds outs) := by
        simp only [recentEntries]
        exact List.drop_sublist _ _
      exact this.subset he
    have hmem := (stableSortBy_perm entryLt _).mem_iff.mp hs
    rcases List.mem_append.mp hmem with hc | ho
    · obtain ⟨a, ha, hae⟩ := List.mem_map.mp hc
      have := (List.mem_filter.mp ha).2
      rw [← hae]
      exact of_decide_eq_true this
    · obtain ⟨a, ha, hae⟩ := List.mem_map.mp ho
      have := (List.mem_filter.mp ha).2
      rw [← hae]
      exact of_decide_eq_true this
  · simp only [recentEntries, List.length_drop]
    omega
  · simp only [recentEntries]
    exact List.drop_suffix _ _
  · have hsub : List.Sublist (recentEntries now mins cmds outs)
        (sortedRecent now mins cmds outs) := by
      simp only [recentEntries]
      exact List.drop_sublist _ _
    have hpw : List.Pairwise (fun a b : TEntry => a.ts ≤ b.ts)
        (sortedRecent now mins cmds outs) := by
      refine pairwise_stableSortBy entryLt _ ?_ ?_ ?_ _
      · intro a b hab
        exact le_of_lt (of_decide_eq_true hab)
      · intro a b hab
        have : ¬ a.ts < b.ts := of_decide_eq_false hab
        omega
      · intro a b c h1 h2
        omega
    exact List.Pairwise.sublist hsub hpw
  · intro t
    rw [sortedRecent, filter_stableSortBy entryLt _ ?habs, List.filter_append,
      List.filter_map, List.filter_map]
    · rfl
    case habs =>
      intro x y hx hlt
      have hxt : x.ts = t := by simpa [beq_iff_eq] using hx
      have hyx : y.ts < x.ts := of_decide_eq_true hlt
      simp only [beq_eq_false_iff_ne]
      omega
  · intro o hlen
    simp [renderTEntry, truncateOutput, hlen]

/-- Witness for C4 at a concrete tied-timestamp state. -/
theorem C4_recent_context_witness :
    (10000 : Int) - 30 * 60 ≤ (TEntry.cmd ⟨9000, "C".toList, []⟩).ts ∧
    (recentEntries 10000 30 [⟨9000, "C".toList, []⟩]
      [⟨9000, [], "O".toList, []⟩]).length ≤ 20 :=
  ⟨(C4_recent_context 10000 30 [⟨9000, "C".toList, []⟩]
      [⟨9000, [], "O".toList, []⟩]).1
      (TEntry.cmd ⟨9000, "C".toList, []⟩) (by decide),
   (C4_recent_context 10000 30 [⟨9000, "C".toList, []⟩]
      [⟨9000, [], "O".toList, []⟩]).2.1⟩

/-! ### C5: process start/termination diffing -/

/-- Lookup after a dict assignment. -/
theorem lookup_dictSet [BEq κ] [LawfulBEq κ] (k j : κ) (v : ν) :
    ∀ d : List (κ × ν),
      List.lookup j (dictSet k v d) =
        if j == k then some v else List.lookup j d := by
  intro d
  induction d with
  | nil =>
    cases hj : j == k <;> simp [dictSet, List.lookup, hj]
  | cons q rest ih =>
    obtain ⟨q1, q2⟩ := q
    cases hq : q1 == k with
    | true =>
      have hq' : q1 = k := eq_of_beq hq
      cases hj : j == k with
      | true =>
        have hjq : (j == q1) = true := by rw [hq']; exact hj
        simp [dictSet, hq, List.lookup, hjq, hj]
      | false =>
        have hjq : (j == q1) = false := by rw [hq']; exact hj
        simp [dictSet, hq, List.lookup, hjq, hj]
    | false =>
      cases hj : j == q1 with
      | true =>
        have hjk : (j == k) = false := by rw [eq_of_beq hj]; exact hq
        simp [dictSet, hq, List.lookup, hj, hjk]
      | false =>
        simp [dictSet, hq, List.lookup, hj, ih]

/-- Lookup after a dict deletion of a different key. -/
theorem lookup_dictRemove [BEq κ] [LawfulBEq κ] (k j : κ) (hne : j ≠ k) :
    ∀ d : List (κ × ν), List.lookup j (dictRemove k d) = List.lookup j d := by
  intro d
  have hjk : (j == k) = false := beq_eq_false_iff_ne.mpr hne
  induction d with
  | nil => rfl
  | cons q rest ih =>
    obtain ⟨q1, q2⟩ := q
    rw [dictRemove]
    cases hq : (q1, q2).1 == k with
    | true =>
      have hjq : (j == q1) = false := by
        rw [show q1 = k from eq_of_beq (by simpa using hq)]
        exact hjk
      simp [List.lookup, hjq]
    | false =>
      cases hj : j == q1 with
      | true => simp [List.lookup, hj]
      | false => simp [List.lookup, hj, ih]

/-- The enumeration loop appends exactly one started event per new
interesting process, in snapshot order, and caches exactly those processes. -/
theorem startPhase_spec (known : List Nat) :
    ∀ (snap : List ProcInfo) (acc : List PEvent × List (Nat × ProcInfo)),
      (snap.foldl (startStep known) acc).1 =
        acc.1 ++ (newInteresting known snap).map startedEvent ∧
      (snap.foldl (startStep known) acc).2 =
        (newInteresting known snap).foldl (fun c p => dictSet p.pid p c) acc.2 := by
  intro snap
  induction snap with
  | nil => intro acc; simp [newInteresting]
  | cons p ps ih =>
    intro acc
    rw [List.foldl_cons, startStep]
    by_cases hk : p.pid ∈ known
    · rw [if_pos hk]
      have hni : newInteresting known (p :: ps) = newInteresting known ps := by
        simp [newInteresting, List.filter_cons, hk]
      rw [hni]
      exact ih acc
    · rw [if_neg hk]
      by_cases hint : isInterestingProcess p
      · rw [if_pos hint]
        have hni : newInteresting known (p :: ps) = p :: newInteresting known ps := by
          simp [newInteresting, List.filter_cons, hk, hint]
        rw [hni]
        refine ⟨?_, ?_⟩
        · rw [(ih _).1]
          simp
        · rw [(ih _).2]
          rfl
      · rw [if_neg hint]
        have hni : newInteresting known (p :: ps) = newInteresting known ps := by
          simp [newInteresting, List.filter_cons, hk, hint]
        rw [hni]
        exact ih acc

/-- Folding dict assignments for processes whose pids avoid `j` leaves the
lookup of `j` unchanged. -/
theorem lookup_foldl_dictSet (j : Nat) :
    ∀ (l : List ProcInfo) (cache : List (Nat × ProcInfo)),
      (∀ p ∈ l, p.pid ≠ j) →
      List.lookup j (l.foldl (fun c p => dictSet p.pid p c) cache) =
        List.lookup j cache := by
  intro l
  induction l with
  | nil => intro cache _; rfl
  | cons p ps ih =>
    intro cache h
    have hbe : (j == p.pid) = false :=
      beq_eq_false_iff_ne.mpr fun he => h p (List.mem_cons_self p ps) he.symm
    rw [List.foldl_cons, ih _ fun q hq => h q (List.mem_cons_of_mem _ hq),
      lookup_dictSet]
    simp [hbe]

/-- The terminated loop over distinct pids emits exactly one terminated event
per vanished pid present in the cache at loop entry, in pid order. -/
theorem termPhase_events :
    ∀ (tpids : List Nat) (acc : List PEvent × List (Nat × ProcInfo)),
      tpids.Nodup →
      (tpids.foldl termStep acc).1 =
        acc.1 ++ tpids.filterMap
          (fun pid => (List.lookup pid acc.2).map fun info => terminatedEvent pid info) := by
  intro tpids
  induction tpids with
  | nil => intro acc _; simp
  | cons pid rest ih =>
    intro acc hnd
    obtain ⟨hpid, hrest⟩ := List.nodup_cons.mp hnd
    rw [List.foldl_cons, List.filterMap_cons, termStep]
    cases hl : List.lookup pid acc.2 with
    | none =>
      simp only [hl]
      exact ih acc hrest
    | some info =>
      simp only [hl]
      rw [ih _ hrest]
      have hcongr : rest.filterMap
          (fun q => (List.lookup q (dictRemove pid acc.2)).map
            fun i => terminatedEvent q i) =
          rest.filterMap
          (fun q => (List.lookup q acc.2).map fun i => terminatedEvent q i) := by
        refine List.filterMap_congr ?_
        intro q hq
        rw [lookup_dictRemove pid q (fun he => hpid (he ▸ hq)) acc.2]
      rw [show ((acc.1 ++ [terminatedEvent pid info], dictRemove pid acc.2) :
          List PEvent × List (Nat × ProcInfo)).1 = acc.1 ++ [terminatedEvent pid info]
          from rfl,
        show ((acc.1 ++ [terminatedEvent pid info], dictRemove pid acc.2) :
          List PEvent × List (Nat × ProcInfo)).2 = dictRemove pid acc.2 from rfl,
        hcongr, List.append_assoc]
      rfl

/-- The snapshot-pid fold only grows its accumulator. -/
theorem mem_snapshotPids_foldl_mono (x : Nat) :
    ∀ (snap : List ProcInfo) (acc : List Nat), x ∈ acc →
      x ∈ snap.foldl (fun a p => if p.pid ∈ a then a else a ++ [p.pid]) acc := by
  intro snap
  induction snap with
  | nil => intro acc h; exact h
  | cons p ps ih =>
    intro acc h
    rw [List.foldl_cons]
    by_cases hp : p.pid ∈ acc
    · rw [if_pos hp]; exact ih acc h
    · rw [if_neg hp]; exact ih _ (List.mem_append_left _ h)

/-- Every enumerated process's pid lands in the snapshot pid set. -/
theorem mem_snapshotPids {p : ProcInfo} :
    ∀ (snap : List ProcInfo), p ∈ snap → p.pid ∈ snapshotPids snap := by
  have aux : ∀ (snap : List ProcInfo) (acc : List Nat), p ∈ snap →
      p.pid ∈ snap.foldl (fun a q => if q.pid ∈ a then a else a ++ [q.pid]) acc := by
    intro snap
    induction snap with
    | nil => intro acc h; cases h
    | cons q qs ih =>
      intro acc h
      rcases List.mem_cons.mp h with hq | hqs
      · rw [List.foldl_cons]
        by_cases hmem : q.pid ∈ acc
        · rw [if_pos hmem, hq]
          exact mem_snapshotPids_foldl_mono _ _ _ hmem
        · rw [if_neg hmem, hq]
          exact mem_snapshotPids_foldl_mono _ _ _
            (List.mem_append_right _ (List.mem_singleton.mpr rfl))
      · rw [List.foldl_cons]
        exact ih _ hqs
  intro snap h
  exact aux snap [] h

/-- Started events carry pids of new interesting processes; counting them for
one pid over distinct snapshot pids gives exactly one hit. -/
theorem countP_startedPart (x : Nat) :
    ∀ l : List ProcInfo, ((l.map fun p => p.pid).Nodup) →
      (∃ p ∈ l, p.pid = x) →
      ((l.map startedEvent).countP
        fun e => e.pid == x && e.action == PAction.started) = 1 := by
  intro l
  induction l with
  | nil => intro _ h; obtain ⟨p, hp, _⟩ := h; cases hp
  | cons p ps ih =>
    intro hnd hex
    rw [List.map_cons] at hnd
    obtain ⟨hp, hps⟩ := List.nodup_cons.mp hnd
    rw [List.map_cons, List.countP_cons]
    by_cases hpx : p.pid = x
    · have hpred : ((startedEvent p).pid == x && (startedEvent p).action ==
          PAction.started) = true := by
        simp [startedEvent, hpx]
      rw [if_pos hpred]
      have hzero : ((ps.map startedEvent).countP
          fun e => e.pid == x && e.action == PAction.started) = 0 := by
        rw [List.countP_eq_zero]
        intro e he
        obtain ⟨q, hq, hqe⟩ := List.mem_map.mp he
        rw [← hqe]
        have : q.pid ≠ x := by
          intro hqx
          exact hp (hqx.trans hpx.symm ▸ List.mem_map_of_mem (fun r => r.pid) hq)
        simp [startedEvent, this]
      omega
    · have hpred : ((startedEvent p).pid == x && (startedEvent p).action ==
          PAction.started) = false := by
        simp [startedEvent, hpx]
      rw [if_neg (by simp [hpred])]
      have hex' : ∃ q ∈ ps, q.pid = x := by
        obtain ⟨q, hq, hqx⟩ := hex
        rcases List.mem_cons.mp hq with he | hin
        · exact absurd (he ▸ hqx) hpx
        · exact ⟨q, hin, hqx⟩
      rw [ih hps hex']

/-- Counting terminated events for one pid over the terminated part: exactly
one when the pid is among the distinct vanished pids and cached. -/
theorem countP_termPart (cache : List (Nat × ProcInfo)) (pid : Nat) (info : ProcInfo) :
    ∀ tpids : List Nat, tpids.Nodup → pid ∈ tpids →
      List.lookup pid cache = some info →
      ((tpids.filterMap fun q => (List.lookup q cache).map
          fun i => terminatedEvent q i).countP
        fun e => e.pid == pid && e.action == PAction.terminated) = 1 := by
  have hzero : ∀ tpids : List Nat, pid ∉ tpids →
      ((tpids.filterMap fun q => (List.lookup q cache).map
          fun i => terminatedEvent q i).countP
        fun e => e.pid == pid && e.action == PAction.terminated) = 0 := by
    intro tpids
    induction tpids with
    | nil => intro _; rfl
    | cons q rest ih =>
      intro hmem
      have hqpid : q ≠ pid := fun he => hmem (he ▸ List.mem_cons_self q rest)
      have hrest : pid ∉ rest := fun hr => hmem (List.mem_cons_of_mem _ hr)
      cases hl : List.lookup q cache with
      | none =>
        simp only [List.filterMap_cons, hl, Option.map_none']
        exact ih hrest
      | some i =>
        simp only [List.filterMap_cons, hl, Option.map_some']
        rw [List.countP_cons,
          if_neg (by simp [terminatedEvent]; intro he; exact absurd he hqpid), ih hrest]
  intro tpids
  induction tpids with
  | nil => intro _ h; cases h
  | cons q rest ih =>
    intro hnd hmem hl
    obtain ⟨hq, hrest⟩ := List.nodup_cons.mp hnd
    by_cases hqpid : q = pid
    · simp only [List.filterMap_cons, hqpid, hl, Option.map_some']
      rw [List.countP_cons, if_pos (by simp [terminatedEvent])]
      rw [hzero rest (hqpid ▸ hq)]
    · have hmem' : pid ∈ rest := by
        rcases List.mem_cons.mp hmem with he | hin
        · exact absurd he.symm hqpid
        · exact hin
      cases hlq : List.lookup q cache with
      | none =>
        simp only [List.filterMap_cons, hlq, Option.map_none']
        exact ih hrest hmem' hl
      | some i =>
        simp only [List.filterMap_cons, hlq, Option.map_some']
        rw [List.countP_cons,
          if_neg (by simp [terminatedEvent]; intro he; exact absurd he hqpid),
          ih hrest hmem' hl]

/-- C5 counterexample: with snapshots `{1, 2} → {2, 3}` where pids 1 and 2
are uninteresting (never cached) and pid 3 is `bash`, the watcher emits only
`started(3)` — no `terminated(1)` event at all, because terminated events are
emitted only for pids in the process cache, refuting the claim's "a
terminated event for each pid present in the previous snapshot but absent
from the current one". -/
theorem C5_counterexample :
    (watcherRun initWatcher
      [[⟨1, "krb".toList, []⟩, ⟨2, "krbx".toList, []⟩],
       [⟨2, "krbx".toList, []⟩, ⟨3, "bash".toList, []⟩]]).1 =
      [⟨3, "bash".toList, some ("bash".toList), .started⟩] ∧
    ¬ ∃ e ∈ (watcherRun initWatcher
      [[⟨1, "krb".toList, []⟩, ⟨2, "krbx".toList, []⟩],
       [⟨2, "krbx".toList, []⟩, ⟨3, "bash".toList, []⟩]]).1,
        e.action = PAction.terminated := by
  constructor
  · decide
  · decide

/-- C5 (amended): on each poll the watcher emits, in order, one started event
per enumerated process whose pid is new and matches the allow-list, followed
by one terminated event per previously known pid absent from the snapshot
*that is present in the process cache* (i.e. that previously emitted a
started event), the cached info naming the event; a pid present in both
snapshots emits nothing, and a vanished pid that was never cached emits
nothing. -/
theorem C5_process_watcher (st : WatcherState) (snap : List ProcInfo)
    (hnk : st.knownPids.Nodup) :
    (watcherStep st snap).1 =
      (newInteresting st.knownPids snap).map startedEvent ++
        (st.knownPids.filter fun pid => decide (pid ∉ snapshotPids snap)).filterMap
          (fun pid => (List.lookup pid st.cache).map
            fun info => terminatedEvent pid info) ∧
    (∀ pid, pid ∈ st.knownPids → pid ∈ snapshotPids snap →
      ∀ e ∈ (watcherStep st snap).1, e.pid ≠ pid) ∧
    (∀ pid, pid ∉ snapshotPids snap → List.lookup pid st.cache = none →
      ∀ e ∈ (watcherStep st snap).1, e.pid ≠ pid) ∧
    (∀ p ∈ snap, p.pid ∉ st.knownPids → isInterestingProcess p = true →
      ((snap.map fun q => q.pid).Nodup) →
      ((watcherStep st snap).1.countP
        fun e => e.pid == p.pid && e.action == PAction.started) = 1) ∧
    (∀ pid info, pid ∈ st.knownPids → pid ∉ snapshotPids snap →
      List.lookup pid st.cache = some info →
      ((watcherStep st snap).1.countP
        fun e => e.pid == pid && e.action == PAction.terminated) = 1) := by
  have hterm_nodup : (st.knownPids.filter
      fun pid => decide (pid ∉ snapshotPids snap)).Nodup :=
    List.Nodup.sublist (List.filter_sublist _) hnk
  have hstart := startPhase_spec st.knownPids snap ([], st.cache)
  have hterm := termPhase_events
    (st.knownPids.filter fun pid => decide (pid ∉ snapshotPids snap))
    (snap.foldl (startStep st.knownPids) ([], st.cache)) hterm_nodup
  have hcacheEq : ∀ pid, pid ∉ snapshotPids snap →
      List.lookup pid (snap.foldl (startStep st.knownPids) ([], st.cache)).2 =
        List.lookup pid st.cache := by
    intro pid hpid
    rw [hstart.2]
    refine lookup_foldl_dictSet pid _ st.cache ?_
    intro p hp hpe
    exact hpid (hpe ▸ mem_snapshotPids snap ((List.filter_sublist _).subset hp))
  have hmain : (watcherStep st snap).1 =
      (newInteresting st.knownPids snap).map startedEvent ++
        (st.knownPids.filter fun pid => decide (pid ∉ snapshotPids snap)).filterMap
          (fun pid => (List.lookup pid st.cache).map
            fun info => terminatedEvent pid info) := by
    show ((st.knownPids.filter fun pid => decide (pid ∉ snapshotPids snap)).foldl
        termStep (snap.foldl (startStep st.knownPids) ([], st.cache))).1 = _
    rw [hterm, hstart.1, List.nil_append]
    congr 1
    refine List.filterMap_congr ?_
    intro pid hpid
    rw [hcacheEq pid (of_decide_eq_true (List.mem_filter.mp hpid).2)]
  refine ⟨hmain, ?_, ?_, ?_, ?_⟩
  · intro pid hknown hcur e he hpe
    rw [hmain] at he
    rcases List.mem_append.mp he with hs | ht
    · obtain ⟨p, hp, hpev⟩ := List.mem_map.mp hs
      have : p.pid ∉ st.knownPids :=
        of_decide_eq_true (Bool.and_elim_left (List.mem_filter.mp hp).2)
      exact this (by rw [show p.pid = e.pid from by rw [← hpev]; rfl, hpe]; exact hknown)
    · obtain ⟨q, hq, hqev⟩ := List.mem_filterMap.mp ht
      cases hlq : List.lookup q st.cache with
      | none => rw [hlq] at hqev; cases hqev
      | some i =>
        rw [hlq] at hqev
        have hqpid : q = e.pid := by
          have h2 := Option.some.inj hqev
          rw [← h2]
          rfl
        have hqnot : q ∉ snapshotPids snap :=
          of_decide_eq_true (List.mem_filter.mp hq).2
        exact hqnot (hqpid.trans hpe ▸ hcur)
  · intro pid hcur hcache e he hpe
    rw [hmain] at he
    rcases List.mem_append.mp he with hs | ht
    · obtain ⟨p, hp, hpev⟩ := List.mem_map.mp hs
      have hmemsnap : p.pid ∈ snapshotPids snap :=
        mem_snapshotPids snap ((List.filter_sublist _).subset hp)
      have : p.pid = pid := by rw [show p.pid = e.pid from by rw [← hpev]; rfl, hpe]
      exact hcur (this ▸ hmemsnap)
    · obtain ⟨q, hq, hqev⟩ := List.mem_filterMap.mp ht
      cases hlq : List.lookup q st.cache with
      | none => rw [hlq] at hqev; cases hqev
      | some i =>
        rw [hlq] at hqev
        have hqpid : q = e.pid := by
          have h2 := Option.some.inj hqev
          rw [← h2]
          rfl
        have hqp : q = pid := hqpid.trans hpe
        rw [hqp, hcache] at hlq
        cases hlq
  · intro p hp hnew hint hsnapnd
    rw [hmain, List.countP_append]
    have hzero : (((st.knownPids.filter fun pid =>
        decide (pid ∉ snapshotPids snap)).filterMap
          (fun pid => (List.lookup pid st.cache).map
            fun info => terminatedEvent pid info)).countP
        fun e => e.pid == p.pid && e.action == PAction.started) = 0 := by
      rw [List.countP_eq_zero]
      intro e he
      obtain ⟨q, _, hqev⟩ := List.mem_filterMap.mp he
      cases hlq : List.lookup q st.cache with
      | none => rw [hlq] at hqev; cases hqev
      | some i =>
        rw [hlq] at hqev
        rw [← Option.some.inj hqev]
        simp [terminatedEvent]
    have hone : (((newInteresting st.knownPids snap).map startedEvent).countP
        fun e => e.pid == p.pid && e.action == PAction.started) = 1 := by
      refine countP_startedPart p.pid _ ?_ ?_
      · exact List.Nodup.sublist
          (List.Sublist.map (fun q : ProcInfo => q.pid) (List.filter_sublist _)) hsnapnd
      · exact ⟨p, List.mem_filter.mpr ⟨hp, by simp [hnew, hint]⟩, rfl⟩
    omega
  · intro pid info hknown hcur hlook
    rw [hmain, List.countP_append]
    have hzero : (((newInteresting st.knownPids snap).map startedEvent).countP
        fun e => e.pid == pid && e.action == PAction.terminated) = 0 := by
      rw [List.countP_eq_zero]
      intro e he
      obtain ⟨q, _, hqev⟩ := List.mem_map.mp he
      rw [← hqev]
      simp [startedEvent]
    have hone := countP_termPart st.cache pid info
      (st.knownPids.filter fun q => decide (q ∉ snapshotPids snap)) hterm_nodup
      (List.mem_filter.mpr ⟨hknown, decide_eq_true hcur⟩) hlook
    omega

/-- Witness for C5 at a concrete cached transition `{1,2} → {2,3}`. -/
theorem C5_process_watcher_witness :
    ((watcherStep ⟨[1, 2], [(1, ⟨1, "bash".toList, []⟩), (2, ⟨2, "bash".toList, []⟩)]⟩
        [⟨2, "bash".toList, []⟩, ⟨3, "vim".toList, []⟩]).1.countP
      fun e => e.pid == 1 && e.action == PAction.terminated) = 1 :=
  (C5_process_watcher
    ⟨[1, 2], [(1, ⟨1, "bash".toList, []⟩), (2, ⟨2, "bash".toList, []⟩)]⟩
    [⟨2, "bash".toList, []⟩, ⟨3, "vim".toList, []⟩] (by decide)).2.2.2.2
    1 ⟨1, "bash".toList, []⟩ (by decide) (by decide) (by decide)

/-! ### C6: file-reference resolution -/

/-- Membership after a dict assignment. -/
theorem mem_dictSet [BEq κ] [LawfulBEq κ] {p : κ × ν} (k : κ) (v : ν) :
    ∀ d : List (κ × ν), p ∈ dictSet k v d → p = (k, v) ∨ p ∈ d := by
  intro d
  induction d with
  | nil =>
    intro hp
    rcases List.mem_singleton.mp (by simpa [dictSet] using hp) with h
    exact Or.inl h
  | cons q rest ih =>
    obtain ⟨q1, q2⟩ := q
    intro hp
    rw [dictSet] at hp
    by_cases hq : (q1 == k) = true
    · rw [if_pos hq] at hp
      rcases List.mem_cons.mp hp with he | hin
      · exact Or.inl (by rw [he, eq_of_beq hq])
      · exact Or.inr (List.mem_cons_of_mem _ hin)
    · rw [if_neg hq] at hp
      rcases List.mem_cons.mp hp with he | hin
      · exact Or.inr (he ▸ List.mem_cons_self _ _)
      · rcases ih hin with h | h
        · exact Or.inl h
        · exact Or.inr (List.mem_cons_of_mem _ h)

/-- Every value in the reference map is the resolution of its token. -/
theorem parseFileReferences_values (fs : FileSystem) (cwd : PyStr) :
    ∀ (toks : List PyStr) (acc : List (PyStr × PyStr)),
      (∀ p ∈ acc, p.2 = resolveToken fs cwd p.1) →
      ∀ p ∈ toks.foldl (fun a tok => dictSet tok (resolveToken fs cwd tok) a) acc,
        p.2 = resolveToken fs cwd p.1 := by
  intro toks
  induction toks with
  | nil => intro acc h; exact h
  | cons t ts ih =>
    intro acc h
    rw [List.foldl_cons]
    refine ih _ ?_
    intro p hp
    rcases mem_dictSet t (resolveToken fs cwd t) acc hp with he | hin
    · rw [he]
    · exact h p hin

/-- Folding same-valued dict assignments preserves a correct lookup. -/
theorem lookup_foldl_dictSet_preserved (fs : FileSystem) (cwd tok : PyStr) :
    ∀ (toks : List PyStr) (acc : List (PyStr × PyStr)),
      List.lookup tok acc = some (resolveToken fs cwd tok) →
      List.lookup tok
          (toks.foldl (fun a t => dictSet t (resolveToken fs cwd t) a) acc) =
        some (resolveToken fs cwd tok) := by
  intro toks
  induction toks with
  | nil => intro acc h; exact h
  | cons t ts ih =>
    intro acc h
    rw [List.foldl_cons]
    refine ih _ ?_
    rw [lookup_dictSet]
    cases he : tok == t with
    | true =>
      rw [eq_of_beq he]
      simp
    | false => simpa [he] using h

/-- A token among those folded in looks up to its resolution. -/
theorem lookup_foldl_dictSet_mem (fs : FileSystem) (cwd tok : PyStr) :
    ∀ (toks : List PyStr) (acc : List (PyStr × PyStr)), tok ∈ toks →
      List.lookup tok
          (toks.foldl (fun a t => dictSet t (resolveToken fs cwd t) a) acc) =
        some (resolveToken fs cwd tok) := by
  intro toks
  induction toks with
  | nil => intro acc h; cases h
  | cons t ts ih =>
    intro acc hmem
    rw [List.foldl_cons]
    rcases List.mem_cons.mp hmem with he | hin
    · refine lookup_foldl_dictSet_preserved fs cwd tok ts _ ?_
      rw [lookup_dictSet, he]
      simp
    · exact ih _ hin

/-- C6: `parse_file_references` returns only in-band strings and never lets
an exception escape: every entry of the result maps a matched token to its
total resolution; a token whose resolved path is neither a file nor a
directory maps to the literal `"File not found: <resolved path>"`; and a
failure while reading a file maps to the literal
`"Error reading file: <message>"`. -/
theorem C6_file_reference_errors (fs : FileSystem) (cwd text : PyStr) :
    (∀ p ∈ parseFileReferences fs cwd text, p.2 = resolveToken fs cwd p.1) ∧
    (∀ tok ∈ findFileRefs text,
      List.lookup tok (parseFileReferences fs cwd text) =
        some (resolveToken fs cwd tok)) ∧
    (∀ tok : PyStr, fs.isFile (resolvePath cwd tok) = false →
      fs.isDir (resolvePath cwd tok) = false →
      resolveToken fs cwd tok = ("File not found: ".toList) ++ resolvePath cwd tok) ∧
    (∀ (tok msg : PyStr), fs.isFile (resolvePath cwd tok) = true →
      fs.readFile (resolvePath cwd tok) = .error msg →
      resolveToken fs cwd tok = ("Error reading file: ".toList) ++ msg) := by
  refine ⟨?_, ?_, ?_, ?_⟩
  · intro p hp
    exact parseFileReferences_values fs cwd (findFileRefs text) [] (by intro q hq; cases hq)
      p hp
  · intro tok hmem
    exact lookup_foldl_dictSet_mem fs cwd tok (findFileRefs text) [] hmem
  · intro tok h1 h2
    simp [resolveToken, h1, h2]
  · intro tok msg h1 h2
    simp [resolveToken, h1, h2]

/-- Witness for C6: on a filesystem where nothing exists, `"@missing.txt"`
maps its token to the resolution string (the not-found literal). -/
theorem C6_file_reference_errors_witness :
    List.lookup ("missing.txt".toList)
      (parseFileReferences
        ⟨fun _ => false, fun _ => false, fun _ => Except.error [],
          fun _ => Except.error DirErr.perm⟩
        ("/home".toList) ("@missing.txt".toList)) =
      some (resolveToken
        ⟨fun _ => false, fun _ => false, fun _ => Except.error [],
          fun _ => Except.error DirErr.perm⟩
        ("/home".toList) ("missing.txt".toList)) :=
  (C6_file_reference_errors
    ⟨fun _ => false, fun _ => false, fun _ => Except.error [],
      fun _ => Except.error DirErr.perm⟩
    ("/home".toList) ("@missing.txt".toList)).2.1 ("missing.txt".toList) (by decide)

end MonitorLLM
